import Mathlib

unseal Rat.mul Rat.add Rat.sub Rat.inv

/-
Verification of the PMBus numeric codec core (LINEAR11 / ULINEAR16 / DIRECT
formats, VOUT_MODE parser, status registers) of the pmbus-adapter crate.

The Rust source works on IEEE-754 binary32 (`f32`).  We model `f32` values
exactly: a finite float is a rational number, and every arithmetic operation
is "compute the exact rational result, then round to the binary32 grid with
round-to-nearest, ties-to-even" - which is precisely the IEEE semantics of
+, -, *, / on binary32.  The rounding function `rnd` is built from a
floor-log2 on rationals implemented with fuel-based structural recursion so
that everything is kernel-computable.
-/

/-! ## Kernel-friendly rational primitives -/

/-- 2^e as a rational, for an integer exponent e (computed through natural
number powers so that the kernel can evaluate it directly). -/
def pow2 (e : ℤ) : ℚ := if 0 ≤ e then ((2 ^ e.toNat : ℕ) : ℚ) else 1 / ((2 ^ (-e).toNat : ℕ) : ℚ)

/-- Floor of a rational as an integer (Euclidean division of the reduced
numerator by the positive denominator). -/
def qfloor (q : ℚ) : ℤ := Int.ediv q.num q.den

/-- Ceiling of a rational. -/
def qceil (q : ℚ) : ℤ := -qfloor (-q)

/-- Truncation toward zero (the semantics of Rust float-to-int casts). -/
def qtrunc (x : ℚ) : ℤ := if 0 ≤ x then qfloor x else qceil x

/-- Fuel-driven floor-log2 on naturals (structural recursion, kernel-reducible). -/
def ilog2Aux : ℕ → ℕ → ℕ
  | 0, _ => 0
  | fuel + 1, n => if n < 2 then 0 else ilog2Aux fuel (n / 2) + 1

/-- Floor of log2 of a natural number (0 and 1 map to 0). -/
def ilog2 (n : ℕ) : ℕ := ilog2Aux n n

/-- Floor of log2 of a positive rational: the unique e with 2^e <= q < 2^(e+1). -/
def qlog2 (q : ℚ) : ℤ :=
  if 1 ≤ q then (ilog2 (qfloor q).toNat : ℤ)
  else
    let k := ilog2 (q.den / q.num.toNat)
    if (q.den : ℤ) ≤ q.num * 2 ^ k then -(k : ℤ) else -(k : ℤ) - 1

/-! ## Round to nearest, ties to even -/

/-- Round a rational to the nearest integer, ties going to the even integer. -/
def rne (x : ℚ) : ℤ :=
  if x - (qfloor x : ℚ) < 1 / 2 then qfloor x
  else if (1 : ℚ) / 2 < x - (qfloor x : ℚ) then qfloor x + 1
  else if qfloor x % 2 = 0 then qfloor x else qfloor x + 1

/-- The exponent of the binary32 rounding grid at magnitude `x`:
normal numbers use ulp 2^(log2|x| - 23), subnormals bottom out at 2^(-149). -/
def fexp (x : ℚ) : ℤ := max (qlog2 |x| - 23) (-149)

/-- Round a rational to the binary32 grid (unbounded exponent above),
round-to-nearest, ties-to-even. -/
def rnd (x : ℚ) : ℚ := (rne (x / pow2 (fexp x)) : ℚ) * pow2 (fexp x)

/-! ## The binary32 value model -/

/-- Model of an `f32` value: NaN, a signed infinity, or a finite value
(the sign of zero is not tracked; it is unobservable in this codebase). -/
inductive F32 where
  | nan : F32
  | inf : Bool → F32
  | fin : ℚ → F32
deriving DecidableEq

/-- Largest finite binary32 value, (2^24 - 1) * 2^104. -/
def maxFinite : ℚ := ((16777215 : ℚ)) * pow2 104

/-- Smallest positive (normal) binary32 value used by `f32::MIN_POSITIVE`, 2^(-126). -/
def minPositive : ℚ := pow2 (-126)

/-- Round an exact rational result into an `F32`: overflow (rounded magnitude
reaching 2^128) becomes an infinity of the operand's sign. -/
def fl (x : ℚ) : F32 :=
  if |rnd x| < pow2 128 then F32.fin (rnd x) else F32.inf (decide (x < 0))

/-- Whether the value is finite (`f32::is_finite`). -/
def F32.isFinite : F32 → Bool
  | F32.fin _ => true
  | _ => false

/-- IEEE equality `==` (NaN compares unequal to everything). -/
def feq : F32 → F32 → Bool
  | F32.fin a, F32.fin b => decide (a = b)
  | F32.inf s, F32.inf t => s == t
  | _, _ => false

/-- IEEE strict less-than `<` (false on NaN). -/
def flt : F32 → F32 → Bool
  | F32.fin a, F32.fin b => decide (a < b)
  | F32.fin _, F32.inf t => !t
  | F32.inf s, F32.fin _ => s
  | F32.inf s, F32.inf t => s && !t
  | _, _ => false

/-- IEEE less-or-equal `<=` (false on NaN). -/
def fle : F32 → F32 → Bool
  | F32.fin a, F32.fin b => decide (a ≤ b)
  | F32.fin _, F32.inf t => !t
  | F32.inf s, F32.fin _ => s
  | F32.inf s, F32.inf t => s == t || (s && !t)
  | _, _ => false

/-- IEEE greater-or-equal `>=` (false on NaN). -/
def fge (x y : F32) : Bool := fle y x

/-- IEEE negation. -/
def fneg : F32 → F32
  | F32.nan => F32.nan
  | F32.inf s => F32.inf (!s)
  | F32.fin q => F32.fin (-q)

/-- IEEE absolute value. -/
def fabs : F32 → F32
  | F32.nan => F32.nan
  | F32.inf _ => F32.inf false
  | F32.fin q => F32.fin |q|

/-- IEEE binary32 addition: exact rational sum, then round. -/
def fadd : F32 → F32 → F32
  | F32.nan, _ => F32.nan
  | _, F32.nan => F32.nan
  | F32.inf s, F32.inf t => if s = t then F32.inf s else F32.nan
  | F32.inf s, F32.fin _ => F32.inf s
  | F32.fin _, F32.inf t => F32.inf t
  | F32.fin a, F32.fin b => fl (a + b)

/-- IEEE binary32 subtraction. -/
def fsub (x y : F32) : F32 := fadd x (fneg y)

/-- IEEE binary32 multiplication: exact rational product, then round. -/
def fmul : F32 → F32 → F32
  | F32.nan, _ => F32.nan
  | _, F32.nan => F32.nan
  | F32.inf s, F32.inf t => F32.inf (xor s t)
  | F32.inf s, F32.fin b => if b = 0 then F32.nan else F32.inf (xor s (decide (b < 0)))
  | F32.fin a, F32.inf t => if a = 0 then F32.nan else F32.inf (xor t (decide (a < 0)))
  | F32.fin a, F32.fin b => fl (a * b)

/-- IEEE binary32 division: exact rational quotient, then round. -/
def fdiv : F32 → F32 → F32
  | F32.nan, _ => F32.nan
  | _, F32.nan => F32.nan
  | F32.inf _, F32.inf _ => F32.nan
  | F32.inf s, F32.fin b => F32.inf (xor s (decide (b < 0)))
  | F32.fin _, F32.inf _ => F32.fin 0
  | F32.fin a, F32.fin b =>
    if b = 0 then (if a = 0 then F32.nan else F32.inf (decide (a < 0))) else fl (a / b)

/-- Rust `as i32` cast from `f32`: NaN to 0, saturating, truncating toward zero. -/
def castI32 : F32 → ℤ
  | F32.nan => 0
  | F32.inf s => if s then -2147483648 else 2147483647
  | F32.fin q => max (-2147483648) (min 2147483647 (qtrunc q))

/-- Rust `as u32` cast from `f32`: NaN to 0, saturating, truncating toward zero. -/
def castU32 : F32 → ℕ
  | F32.nan => 0
  | F32.inf s => if s then 0 else 4294967295
  | F32.fin q => (min 4294967295 (qtrunc q)).toNat

/-- Integer-to-`f32` conversion (`as f32` from i32/i16/i8): rounds to nearest. -/
def F32.ofInt (k : ℤ) : F32 := fl k

/-- Natural-to-`f32` conversion (`as f32` from u32/u16/u8). -/
def F32.ofNat (n : ℕ) : F32 := fl n

/-! ## Embedding of src/formats.rs -/

/-- Two's-complement reinterpretation of a byte as an `i8` value. -/
def i8ofu8 (n : ℕ) : ℤ := if n < 128 then (n : ℤ) else (n : ℤ) - 256

/-- Two's-complement reinterpretation of a 16-bit word as an `i16` value. -/
def i16ofu16 (n : ℕ) : ℤ := if n < 32768 then (n : ℤ) else (n : ℤ) - 65536

/-- Rust `((x as i8) << 3) >> 3` on a byte-sized value: wrapping shift left on
`i8`, then arithmetic shift right (floor division by 8).  This is the 5-bit
sign extension idiom of `Linear11::to_f32` and `VoutMode::from_raw`. -/
def sext5viaI8 (p : ℕ) : ℤ := Int.fdiv (i8ofu8 (Int.toNat ((i8ofu8 (p % 256) * 8) % 256))) 8

/-- Rust `((x as i16) << 5) >> 5` on a 16-bit value: wrapping shift left on
`i16`, then arithmetic shift right (floor division by 32).  This is the 11-bit
sign extension idiom of `Linear11::to_f32`. -/
def sext11viaI16 (p : ℕ) : ℤ :=
  Int.fdiv (i16ofu16 (Int.toNat ((i16ofu16 (p % 65536) * 32) % 65536))) 32

/-- `exp2f` from src/formats.rs: 2^n for integer n via bit shifts and division,
saturating to `f32::MAX` at n >= 31 and to `f32::MIN_POSITIVE` at n <= -31. -/
def exp2f (n : ℤ) : F32 :=
  if 0 ≤ n ∧ n < 31 then F32.ofNat (2 ^ n.toNat)
  else if n < 0 ∧ -31 < n then fdiv (F32.fin 1) (F32.ofNat (2 ^ (-n).toNat))
  else if 31 ≤ n then F32.fin maxFinite
  else F32.fin minPositive

/-- `round_f32` from src/formats.rs: round half away from zero, implemented as
add or subtract 0.5 in `f32` and truncate through an `i32` cast. -/
def round_f32 (x : F32) : F32 :=
  if fge x (F32.fin 0) then F32.ofInt (castI32 (fadd x (F32.fin (1 / 2))))
  else F32.ofInt (castI32 (fsub x (F32.fin (1 / 2))))

/-- PMBus LINEAR11 value: a raw 16-bit bus word. -/
structure Linear11 where
  raw : ℕ
deriving DecidableEq

/-- `Linear11::to_f32`: sign-extend the 5-bit exponent and 11-bit mantissa,
return `y * 2^n` computed in `f32`. -/
def Linear11.to_f32 (x : Linear11) : F32 :=
  fmul (F32.ofInt (sext11viaI16 (x.raw &&& 0x7FF))) (exp2f (sext5viaI8 (x.raw >>> 11)))

/-- Mantissa candidate of the `Linear11::from_f32` search at exponent `n`:
`round_f32(value / exp2f(n)) as i32`. -/
def l11Y (v : F32) (n : ℤ) : ℤ := castI32 (round_f32 (fdiv v (exp2f n)))

/-- Whether exponent `n` passes the `(-1024..=1023).contains(&y_rounded)` filter. -/
def l11Valid (v : F32) (n : ℤ) : Bool := decide (-1024 ≤ l11Y v n) && decide (l11Y v n ≤ 1023)

/-- Reconstructed value `(y as f32) * exp2f(n)` for the candidate at exponent `n`. -/
def l11Recon (v : F32) (n : ℤ) : F32 := fmul (F32.ofInt (l11Y v n)) (exp2f n)

/-- Reconstruction error `(value - reconstructed).abs()` at exponent `n`. -/
def l11Err (v : F32) (n : ℤ) : F32 := fabs (fsub v (l11Recon v n))

/-- One iteration of the `for n in -16i8..=15` loop body of `Linear11::from_f32`:
state is (best_n, best_y, best_err). -/
def l11Step (v : F32) (st : ℤ × ℤ × F32) (n : ℤ) : ℤ × ℤ × F32 :=
  if l11Valid v n then
    (if flt (l11Err v n) st.2.2 then (n, l11Y v n, l11Err v n) else st)
  else st

/-- The exponents scanned by `Linear11::from_f32`, in ascending order -16..=15. -/
def l11Exps : List ℤ := (List.range 32).map (fun i => (i : ℤ) - 16)

/-- Packing step of `Linear11::from_f32`:
`((best_n as u16) & 0x1F) << 11 | ((best_y as u16) & 0x7FF)`. -/
def l11Pack (n y : ℤ) : ℕ :=
  ((Int.toNat (n % 65536) &&& 0x1F) <<< 11) ||| (Int.toNat (y % 65536) &&& 0x7FF)

/-- `Linear11::from_f32`: reject non-finite input, map 0.0 to raw 0, otherwise
scan exponents -16..=15 keeping the first strict improvement of the
reconstruction error, starting from the sentinel error `f32::MAX`. -/
def Linear11.from_f32 (value : F32) : Option Linear11 :=
  if !value.isFinite then none
  else if feq value (F32.fin 0) then some ⟨0⟩
  else
    let best := l11Exps.foldl (l11Step value) (0, 0, F32.fin maxFinite)
    if feq best.2.2 (F32.fin maxFinite) then none
    else some ⟨l11Pack best.1 best.2.1⟩

/-- PMBus ULINEAR16 value: a raw unsigned 16-bit bus word. -/
structure ULinear16 where
  raw : ℕ
deriving DecidableEq

/-- `ULinear16::to_f32`: `(raw as f32) * exp2f(exponent)`. -/
def ULinear16.to_f32 (x : ULinear16) (exponent : ℤ) : F32 :=
  fmul (F32.ofNat x.raw) (exp2f exponent)

/-- `ULinear16::from_f32`: reject non-finite or negative values, compute
`round_f32(value / exp2f(exponent)) as u32`, reject results above 0xFFFF. -/
def ULinear16.from_f32 (value : F32) (exponent : ℤ) : Option ULinear16 :=
  if !value.isFinite || flt value (F32.fin 0) then none
  else
    let raw_f := fdiv value (exp2f exponent)
    let raw_rounded := castU32 (round_f32 raw_f)
    if 0xFFFF < raw_rounded then none else some ⟨raw_rounded⟩

/-- The `POW10` table from src/formats.rs: `f32` literals 1e-8 .. 1e8 (each
literal denotes the binary32 value nearest to the decimal power). -/
def POW10 : List F32 :=
  [fl (1 / 100000000), fl (1 / 10000000), fl (1 / 1000000), fl (1 / 100000), fl (1 / 10000),
   fl (1 / 1000), fl (1 / 100), fl (1 / 10), fl 1, fl 10, fl 100, fl 1000, fl 10000,
   fl 100000, fl 1000000, fl 10000000, fl 100000000]

/-- `pow10` from src/formats.rs: `POW10.get((r as i16 + 8) as usize).copied()`.
The `as usize` cast wraps a negative index to a huge value mod 2^64, so any
index outside [0, 16] misses the 17-entry table and yields `None`. -/
def pow10 (r : ℤ) : Option F32 :=
  POW10.get? (Int.toNat ((r + 8) % 18446744073709551616))

/-- PMBus DIRECT format coefficients (m, b signed 16-bit; R signed 8-bit). -/
structure DirectCoefficients where
  m : ℤ
  b : ℤ
  r : ℤ
deriving DecidableEq

/-- `DirectCoefficients::to_f32`: `scale = pow10(-r).unwrap_or(1.0)`, then
`(1.0 / m as f32) * ((raw as f32) * scale - b as f32)`.  The `i8` negation
`-self.r` wraps at -128 (release-mode two's-complement semantics). -/
def DirectCoefficients.to_f32 (c : DirectCoefficients) (raw : ℤ) : F32 :=
  let nr : ℤ := if c.r = -128 then -128 else -c.r
  let scale := (pow10 nr).getD (F32.fin 1)
  fmul (fdiv (F32.fin 1) (F32.ofInt c.m)) (fsub (fmul (F32.ofInt raw) scale) (F32.ofInt c.b))

/-- `DirectCoefficients::from_f32`: `scale = pow10(r).unwrap_or(1.0)`,
`y = round_f32((m as f32 * value + b as f32) * scale) as i32`, rejected unless
it fits in `i16`. -/
def DirectCoefficients.from_f32 (c : DirectCoefficients) (value : F32) : Option ℤ :=
  let scale := (pow10 c.r).getD (F32.fin 1)
  let y_f := fmul (fadd (fmul (F32.ofInt c.m) value) (F32.ofInt c.b)) scale
  let y := castI32 (round_f32 y_f)
  if y < -32768 || 32767 < y then none else some y

/-- `DirectCoefficients::from_coefficients_response`: parse
`[m_low, m_high, b_low, b_high, r]`, requiring at least 5 bytes. -/
def DirectCoefficients.from_coefficients_response (data : List ℕ) : Option DirectCoefficients :=
  if data.length < 5 then none
  else some
    ⟨i16ofu16 (data.getD 0 0 + 256 * data.getD 1 0),
     i16ofu16 (data.getD 2 0 + 256 * data.getD 3 0),
     i8ofu8 (data.getD 4 0)⟩

/-! ## Embedding of src/vout_mode.rs -/

/-- `VoutModeType` from src/vout_mode.rs. -/
inductive VoutModeType where
  | ulinear16 : ℤ → VoutModeType
  | vid : ℕ → VoutModeType
  | direct : VoutModeType
  | ieeeHalf : VoutModeType
deriving DecidableEq

/-- Parsed VOUT_MODE register. -/
structure VoutMode where
  relative : Bool
  mode : VoutModeType
deriving DecidableEq

/-- `VoutMode::from_raw`: bit 7 relative flag, bits 6:5 mode selector,
bits 4:0 parameter (sign-extended for the ULinear16 exponent). -/
def VoutMode.from_raw (raw : ℕ) : VoutMode :=
  let relative := decide ((raw &&& 0x80) ≠ 0)
  let mode_bits := (raw >>> 5) &&& 0x03
  let param := raw &&& 0x1F
  let mode :=
    if mode_bits = 0 then VoutModeType.ulinear16 (sext5viaI8 param)
    else if mode_bits = 1 then VoutModeType.vid param
    else if mode_bits = 2 then VoutModeType.direct
    else VoutModeType.ieeeHalf
  ⟨relative, mode⟩

/-- `VoutMode::to_raw`: re-encode to a register byte. -/
def VoutMode.to_raw (v : VoutMode) : ℕ :=
  let rel_bit := if v.relative then 0x80 else 0x00
  match v.mode with
  | VoutModeType.ulinear16 e => rel_bit ||| (Int.toNat (e % 256) &&& 0x1F)
  | VoutModeType.vid code => rel_bit ||| (1 <<< 5) ||| (code &&& 0x1F)
  | VoutModeType.direct => rel_bit ||| (2 <<< 5)
  | VoutModeType.ieeeHalf => rel_bit ||| (3 <<< 5)

/-! ## Embedding of src/status.rs

Each bitflags register decodes with `from_bits_truncate`, i.e. masks the raw
value against the union of its declared flag constants. -/

/-- STATUS_BYTE register value. -/
structure StatusByte where
  bits : ℕ
deriving DecidableEq

/-- `StatusByte::from_raw` (flags 0x80|0x40|0x20|0x10|0x08|0x04|0x02|0x01). -/
def StatusByte.from_raw (raw : ℕ) : StatusByte := ⟨raw &&& 0xFF⟩

/-- STATUS_WORD register value. -/
structure StatusWord where
  bits : ℕ
deriving DecidableEq

/-- `StatusWord::from_raw` (all sixteen flag bits declared). -/
def StatusWord.from_raw (raw : ℕ) : StatusWord := ⟨raw &&& 0xFFFF⟩

/-- STATUS_VOUT register value. -/
structure StatusVout where
  bits : ℕ
deriving DecidableEq

/-- `StatusVout::from_raw` (all eight flag bits declared). -/
def StatusVout.from_raw (raw : ℕ) : StatusVout := ⟨raw &&& 0xFF⟩

/-- STATUS_IOUT register value. -/
structure StatusIout where
  bits : ℕ
deriving DecidableEq

/-- `StatusIout::from_raw` (all eight flag bits declared). -/
def StatusIout.from_raw (raw : ℕ) : StatusIout := ⟨raw &&& 0xFF⟩

/-- STATUS_INPUT register value. -/
structure StatusInput where
  bits : ℕ
deriving DecidableEq

/-- `StatusInput::from_raw` (all eight flag bits declared). -/
def StatusInput.from_raw (raw : ℕ) : StatusInput := ⟨raw &&& 0xFF⟩

/-- STATUS_TEMPERATURE register value. -/
structure StatusTemperature where
  bits : ℕ
deriving DecidableEq

/-- `StatusTemperature::from_raw` (flags 0x80|0x40|0x20|0x10 only). -/
def StatusTemperature.from_raw (raw : ℕ) : StatusTemperature := ⟨raw &&& 0xF0⟩

/-- STATUS_CML register value. -/
structure StatusCml where
  bits : ℕ
deriving DecidableEq

/-- `StatusCml::from_raw` (flags 0x80|0x40|0x20|0x10|0x08|0x02|0x01; bit 0x04
is not part of the vocabulary). -/
def StatusCml.from_raw (raw : ℕ) : StatusCml := ⟨raw &&& 0xFB⟩

/-- STATUS_OTHER register value. -/
structure StatusOther where
  bits : ℕ
deriving DecidableEq

/-- `StatusOther::from_raw` (all eight generic bits declared). -/
def StatusOther.from_raw (raw : ℕ) : StatusOther := ⟨raw &&& 0xFF⟩

/-- STATUS_FANS_1_2 register value. -/
structure StatusFans12 where
  bits : ℕ
deriving DecidableEq

/-- `StatusFans12::from_raw` (flags 0x80|0x40|0x20|0x10|0x08|0x04). -/
def StatusFans12.from_raw (raw : ℕ) : StatusFans12 := ⟨raw &&& 0xFC⟩

/-- STATUS_FANS_3_4 register value. -/
structure StatusFans34 where
  bits : ℕ
deriving DecidableEq

/-- `StatusFans34::from_raw` (flags 0x80|0x40|0x20|0x10|0x08|0x04). -/
def StatusFans34.from_raw (raw : ℕ) : StatusFans34 := ⟨raw &&& 0xFC⟩

/-! ## Specification-side helper definitions -/

/-- Interpretation of the low `k` bits of `n` as a two's-complement signed
integer (the specification's "sign-extend" wording). -/
def toSigned (k n : ℕ) : ℤ := if n < 2 ^ (k - 1) then (n : ℤ) else (n : ℤ) - 2 ^ k

/-! ## Lemmas: the floor-log2 primitives -/

theorem ilog2Aux_spec : ∀ fuel n : ℕ, 1 ≤ n → n ≤ fuel →
    2 ^ ilog2Aux fuel n ≤ n ∧ n < 2 ^ (ilog2Aux fuel n + 1) := by
  intro fuel
  induction fuel with
  | zero => intro n h1 h2; omega
  | succ fuel ih =>
    intro n h1 h2
    rw [show ilog2Aux (fuel + 1) n = if n < 2 then 0 else ilog2Aux fuel (n / 2) + 1 from rfl]
    by_cases h : n < 2
    · rw [if_pos h]
      constructor
      · simpa using h1
      · norm_num; omega
    · rw [if_neg h]
      have hrec := ih (n / 2) (by omega) (by omega)
      rcases hrec with ⟨hl, hr⟩
      rw [pow_succ, pow_succ]
      rw [pow_succ] at hr
      constructor
      · omega
      · omega

theorem ilog2_spec (n : ℕ) (h : 1 ≤ n) : 2 ^ ilog2 n ≤ n ∧ n < 2 ^ (ilog2 n + 1) :=
  ilog2Aux_spec n n h le_rfl

theorem qfloor_eq (q : ℚ) : qfloor q = ⌊q⌋ := by
  rw [Rat.floor_def]; rfl

theorem qceil_eq (q : ℚ) : qceil q = ⌈q⌉ := by
  rw [qceil, qfloor_eq, Int.floor_neg, neg_neg]

theorem pow2_eq (e : ℤ) : pow2 e = (2 : ℚ) ^ e := by
  unfold pow2
  by_cases h : 0 ≤ e
  · rw [if_pos h]
    push_cast
    rw [← zpow_natCast, Int.toNat_of_nonneg h]
  · rw [if_neg h]
    push_cast
    rw [← zpow_natCast, Int.toNat_of_nonneg (by omega : (0:ℤ) ≤ -e)]
    rw [one_div, ← zpow_neg, neg_neg]

theorem pow2_pos (e : ℤ) : 0 < pow2 e := by
  rw [pow2_eq]; exact zpow_pos (by norm_num) e

theorem pow2_ne_zero (e : ℤ) : pow2 e ≠ 0 := (pow2_pos e).ne.symm

theorem pow2_zero : pow2 0 = 1 := by norm_num [pow2]

theorem pow2_add (a b : ℤ) : pow2 (a + b) = pow2 a * pow2 b := by
  rw [pow2_eq, pow2_eq, pow2_eq]; exact zpow_add₀ (by norm_num) a b

theorem pow2_mul_pow2_neg (a : ℤ) : pow2 a * pow2 (-a) = 1 := by
  rw [← pow2_add]; norm_num [pow2_zero]

theorem pow2_le_pow2 {a b : ℤ} (h : a ≤ b) : pow2 a ≤ pow2 b := by
  rw [pow2_eq, pow2_eq]; exact zpow_le_zpow_right₀ (by norm_num) h

theorem pow2_lt_pow2_iff {a b : ℤ} : pow2 a < pow2 b ↔ a < b := by
  rw [pow2_eq, pow2_eq]; exact zpow_lt_zpow_iff_right₀ (by norm_num)

theorem pow2_le_pow2_iff {a b : ℤ} : pow2 a ≤ pow2 b ↔ a ≤ b := by
  rw [pow2_eq, pow2_eq]; exact zpow_le_zpow_iff_right₀ (by norm_num)

theorem pow2_natCast (n : ℕ) : pow2 (n : ℤ) = ((2 ^ n : ℕ) : ℚ) := by
  rw [pow2_eq, zpow_natCast]; push_cast; ring

theorem qlog2_spec (q : ℚ) (h : 0 < q) :
    pow2 (qlog2 q) ≤ q ∧ q < pow2 (qlog2 q + 1) := by
  unfold qlog2
  by_cases h1 : 1 ≤ q
  · rw [if_pos h1]
    have hfl : 1 ≤ ⌊q⌋ := Int.le_floor.mpr (by exact_mod_cast h1)
    have hn : 1 ≤ ⌊q⌋.toNat := by omega
    have hspec := ilog2_spec ⌊q⌋.toNat hn
    rw [qfloor_eq]
    set k := ilog2 ⌊q⌋.toNat with hk
    rcases hspec with ⟨hl, hr⟩
    have hcastfl : ((⌊q⌋.toNat : ℕ) : ℚ) = ((⌊q⌋ : ℤ) : ℚ) := by
      have : ((⌊q⌋.toNat : ℕ) : ℤ) = ⌊q⌋ := Int.toNat_of_nonneg (by omega)
      exact_mod_cast this
    constructor
    · rw [pow2_natCast]
      calc ((2 ^ k : ℕ) : ℚ) ≤ ((⌊q⌋.toNat : ℕ) : ℚ) := by exact_mod_cast hl
        _ = (⌊q⌋ : ℚ) := hcastfl
        _ ≤ q := Int.floor_le q
    · have hq : q < (⌊q⌋ : ℚ) + 1 := Int.lt_floor_add_one q
      have h2 : (⌊q⌋ : ℚ) + 1 ≤ ((2 ^ (k + 1) : ℕ) : ℚ) := by
        have hz : ⌊q⌋ + 1 ≤ ((2 ^ (k + 1) : ℕ) : ℤ) := by
          have : ⌊q⌋.toNat + 1 ≤ 2 ^ (k + 1) := by omega
          omega
        exact_mod_cast hz
      have hcast : ((k : ℤ) + 1) = ((k + 1 : ℕ) : ℤ) := by push_cast; ring
      rw [hcast, pow2_natCast]
      linarith
  · rw [if_neg h1]
    have hq1 : q < 1 := lt_of_not_ge h1
    have hnum : 0 < q.num := Rat.num_pos.mpr h
    have hden : 0 < q.den := q.den_pos
    have hdenQ : (0 : ℚ) < (q.den : ℚ) := by exact_mod_cast hden
    have hqeq : q = (q.num : ℚ) / (q.den : ℚ) := (Rat.num_div_den q).symm
    have hlt : q.num < (q.den : ℤ) := by
      have : (q.num : ℚ) < (q.den : ℚ) := by
        rw [hqeq] at hq1
        exact (div_lt_one hdenQ).mp hq1
      exact_mod_cast this
    have hnn : ((q.num.toNat : ℕ) : ℤ) = q.num := Int.toNat_of_nonneg (by omega)
    have hnlt : q.num.toNat < q.den := by omega
    have hnpos : 1 ≤ q.num.toNat := by omega
    have hge1 : 1 ≤ q.den / q.num.toNat := by
      rw [Nat.le_div_iff_mul_le (by omega)]
      omega
    have hspec := ilog2_spec _ hge1
    set k := ilog2 (q.den / q.num.toNat) with hk
    rcases hspec with ⟨hl, hr⟩
    have hl' : 2 ^ k * q.num.toNat ≤ q.den := (Nat.le_div_iff_mul_le (by omega)).mp hl
    have hr' : q.den < 2 ^ (k + 1) * q.num.toNat := by
      have := (Nat.div_lt_iff_lt_mul (x := q.den) (y := 2 ^ (k + 1))
        (k := q.num.toNat) (by omega)).mp hr
      linarith [Nat.mul_comm (2 ^ (k + 1)) q.num.toNat]
    -- pass to exact integer inequalities on num and den
    have hlZ : (2 ^ k : ℤ) * q.num ≤ (q.den : ℤ) := by
      have hstep : ((2 ^ k * q.num.toNat : ℕ) : ℤ) ≤ ((q.den : ℕ) : ℤ) := by exact_mod_cast hl'
      push_cast at hstep
      rw [hnn] at hstep
      exact hstep
    have hrZ : (q.den : ℤ) < q.num * 2 ^ (k + 1) := by
      have hstep : ((q.den : ℕ) : ℤ) < ((2 ^ (k + 1) * q.num.toNat : ℕ) : ℤ) := by
        exact_mod_cast hr'
      push_cast at hstep
      rw [hnn] at hstep
      linarith
    -- rational versions: q <= 2^(-k) and 2^(-k-1) < q
    have hp2k : pow2 (k : ℤ) = ((2 ^ k : ℕ) : ℚ) := pow2_natCast k
    have hub : q ≤ pow2 (-(k : ℤ)) := by
      rw [hqeq, div_le_iff₀ hdenQ]
      have hstep : ((2 ^ k : ℤ) : ℚ) * (q.num : ℚ) ≤ ((q.den : ℤ) : ℚ) := by exact_mod_cast hlZ
      have hmul := pow2_mul_pow2_neg (k : ℤ)
      rw [hp2k] at hmul
      push_cast at hstep
      have hposk : (0 : ℚ) < ((2 ^ k : ℕ) : ℚ) := by positivity
      rw [show pow2 (-(k:ℤ)) = 1 / ((2 ^ k : ℕ) : ℚ) from by
        field_simp at hmul ⊢; linarith [hmul]]
      rw [div_mul_eq_mul_div, le_div_iff₀ hposk]
      push_cast
      nlinarith
    have hlb : pow2 (-(k : ℤ) - 1) < q := by
      rw [hqeq, lt_div_iff₀ hdenQ]
      have hstep : ((q.den : ℤ) : ℚ) < ((q.num : ℤ) : ℚ) * ((2 ^ (k + 1) : ℕ) : ℚ) := by
        have : ((q.den : ℤ) : ℚ) < ((q.num * 2 ^ (k + 1) : ℤ) : ℚ) := by exact_mod_cast hrZ
        push_cast at this ⊢
        linarith
      have hp2k1 : pow2 ((k : ℤ) + 1) = ((2 ^ (k + 1) : ℕ) : ℚ) := by
        have hcast : ((k : ℤ) + 1) = ((k + 1 : ℕ) : ℤ) := by push_cast; ring
        rw [hcast, pow2_natCast]
      have hmul : pow2 (-(k : ℤ) - 1) * ((2 ^ (k + 1) : ℕ) : ℚ) = 1 := by
        rw [← hp2k1, ← pow2_add]
        norm_num [pow2_zero]
      have hposk : (0 : ℚ) < ((2 ^ (k + 1) : ℕ) : ℚ) := by positivity
      calc pow2 (-(k : ℤ) - 1) * (q.den : ℚ)
          < pow2 (-(k : ℤ) - 1) * ((q.num : ℚ) * ((2 ^ (k + 1) : ℕ) : ℚ)) := by
            apply mul_lt_mul_of_pos_left _ (pow2_pos _)
            push_cast at hstep ⊢
            linarith
        _ = (q.num : ℚ) * (pow2 (-(k : ℤ) - 1) * ((2 ^ (k + 1) : ℕ) : ℚ)) := by ring
        _ = (q.num : ℚ) := by rw [hmul, mul_one]
    by_cases hc : (q.den : ℤ) ≤ q.num * 2 ^ k
    · rw [if_pos hc]
      refine ⟨?_, ?_⟩
      · -- q den <= num * 2^k forces 2^(-k) <= q
        rw [hqeq, le_div_iff₀ hdenQ]
        have hstep : ((q.den : ℤ) : ℚ) ≤ ((q.num : ℤ) : ℚ) * ((2 ^ k : ℕ) : ℚ) := by
          have : ((q.den : ℤ) : ℚ) ≤ ((q.num * 2 ^ k : ℤ) : ℚ) := by exact_mod_cast hc
          push_cast at this ⊢
          linarith
        have hmul : pow2 (-(k : ℤ)) * ((2 ^ k : ℕ) : ℚ) = 1 := by
          rw [← hp2k, ← pow2_add]
          norm_num [pow2_zero]
        calc pow2 (-(k : ℤ)) * (q.den : ℚ)
            ≤ pow2 (-(k : ℤ)) * ((q.num : ℚ) * ((2 ^ k : ℕ) : ℚ)) := by
              apply mul_le_mul_of_nonneg_left _ (pow2_pos _).le
              push_cast at hstep ⊢
              linarith
          _ = (q.num : ℚ) * (pow2 (-(k : ℤ)) * ((2 ^ k : ℕ) : ℚ)) := by ring
          _ = (q.num : ℚ) := by rw [hmul, mul_one]
      · calc q ≤ pow2 (-(k : ℤ)) := hub
          _ < pow2 (-(k : ℤ) + 1) := pow2_lt_pow2_iff.mpr (by omega)
    · rw [if_neg hc]
      refine ⟨hlb.le, ?_⟩
      have hceq : -(k : ℤ) - 1 + 1 = -(k : ℤ) := by ring
      rw [hceq]
      rcases lt_or_eq_of_le hub with hlt2 | heq
      · exact hlt2
      · exfalso
        push_neg at hc
        have hmul : pow2 (-(k : ℤ)) * ((2 ^ k : ℕ) : ℚ) = 1 := by
          rw [← hp2k, ← pow2_add]
          norm_num [pow2_zero]
        have : q * ((2 ^ k : ℕ) : ℚ) = 1 := by
          rw [heq]
          exact hmul
        rw [hqeq, div_mul_eq_mul_div, div_eq_iff hdenQ.ne.symm, one_mul] at this
        have hZ : q.num * (2 ^ k : ℤ) = (q.den : ℤ) := by exact_mod_cast this
        omega

theorem qlog2_unique (q : ℚ) (k : ℤ) (h1 : pow2 k ≤ q) (h2 : q < pow2 (k + 1)) :
    qlog2 q = k := by
  have hq : 0 < q := lt_of_lt_of_le (pow2_pos k) h1
  rcases qlog2_spec q hq with ⟨hl, hr⟩
  by_contra hne
  rcases lt_or_gt_of_ne hne with hlt | hgt
  · have : pow2 (qlog2 q + 1) ≤ pow2 k := pow2_le_pow2 (by omega)
    linarith
  · have : pow2 (k + 1) ≤ pow2 (qlog2 q) := pow2_le_pow2 (by omega)
    linarith

theorem qlog2_mono {x y : ℚ} (hx : 0 < x) (h : x ≤ y) : qlog2 x ≤ qlog2 y := by
  rcases qlog2_spec x hx with ⟨hl, _⟩
  rcases qlog2_spec y (lt_of_lt_of_le hx h) with ⟨_, hr⟩
  have hlt : pow2 (qlog2 x) < pow2 (qlog2 y + 1) := by linarith
  have := pow2_lt_pow2_iff.mp hlt
  omega

theorem qlog2_pow2 (k : ℤ) : qlog2 (pow2 k) = k :=
  qlog2_unique _ k le_rfl (pow2_lt_pow2_iff.mpr (by omega))

/-! ## Lemmas: round to nearest even on rationals -/

theorem rne_intCast (k : ℤ) : rne (k : ℚ) = k := by
  unfold rne
  simp only [qfloor_eq, Int.floor_intCast]
  rw [if_pos (by norm_num)]

theorem floor_le_rne (x : ℚ) : ⌊x⌋ ≤ rne x := by
  unfold rne
  simp only [qfloor_eq]
  split_ifs <;> omega

theorem rne_le_floor_add_one (x : ℚ) : rne x ≤ ⌊x⌋ + 1 := by
  unfold rne
  simp only [qfloor_eq]
  split_ifs <;> omega

theorem rne_ge (x : ℚ) : x - 1 / 2 ≤ (rne x : ℚ) := by
  unfold rne
  simp only [qfloor_eq]
  have h1 := Int.floor_le x
  have h2 := Int.lt_floor_add_one x
  split_ifs with ha hb hc <;> push_cast <;> linarith

theorem rne_le (x : ℚ) : (rne x : ℚ) ≤ x + 1 / 2 := by
  unfold rne
  simp only [qfloor_eq]
  have h1 := Int.floor_le x
  have h2 := Int.lt_floor_add_one x
  split_ifs with ha hb hc <;> push_cast <;> linarith

theorem rne_mono {x y : ℚ} (h : x ≤ y) : rne x ≤ rne y := by
  have hf := Int.floor_le_floor h
  rcases eq_or_lt_of_le hf with heq | hlt
  · unfold rne
    simp only [qfloor_eq]
    rw [← heq]
    have hxy : x - (⌊x⌋ : ℚ) ≤ y - (⌊x⌋ : ℚ) := by linarith
    split_ifs <;> first | omega | (exfalso; linarith)
  · have h1 := rne_le_floor_add_one x
    have h2 := floor_le_rne y
    omega

theorem rne_nonneg {x : ℚ} (h : 0 ≤ x) : 0 ≤ rne x := by
  have := rne_mono h
  rw [show ((0:ℚ)) = ((0:ℤ):ℚ) from rfl, rne_intCast] at this
  omega

theorem rne_neg (x : ℚ) : rne (-x) = -rne x := by
  rcases eq_or_ne (x - (⌊x⌋ : ℚ)) 0 with hz | hnz
  · have hx : x = ((⌊x⌋ : ℤ) : ℚ) := by linarith
    rw [hx, ← Int.cast_neg, rne_intCast, rne_intCast]
  · have hfr : 0 < x - (⌊x⌋ : ℚ) :=
      lt_of_le_of_ne (by linarith [Int.floor_le x]) (Ne.symm hnz)
    have hfr2 : x - (⌊x⌋ : ℚ) < 1 := by linarith [Int.lt_floor_add_one x]
    have hceil : ⌈x⌉ = ⌊x⌋ + 1 := by
      have hub := Int.ceil_le_floor_add_one x
      have hlb : (⌊x⌋ : ℚ) < (⌈x⌉ : ℚ) := by linarith [Int.le_ceil x]
      have : ⌊x⌋ < ⌈x⌉ := by exact_mod_cast hlb
      omega
    have hfneg : ⌊-x⌋ = -⌊x⌋ - 1 := by
      rw [Int.floor_neg, hceil]; ring
    unfold rne
    simp only [qfloor_eq]
    rw [hfneg]
    push_cast
    split_ifs <;> first | omega | (exfalso; linarith)

/-! ## Lemmas: the binary32 rounding function -/

theorem fexp_abs (x : ℚ) : fexp |x| = fexp x := by unfold fexp; rw [abs_abs]

theorem fexp_neg (x : ℚ) : fexp (-x) = fexp x := by unfold fexp; rw [abs_neg]

theorem fexp_ge (x : ℚ) : -149 ≤ fexp x := le_max_right _ _

theorem rnd_zero : rnd 0 = 0 := by
  unfold rnd
  rw [zero_div, show ((0:ℚ)) = ((0:ℤ):ℚ) from rfl, rne_intCast]
  simp

theorem rnd_neg (x : ℚ) : rnd (-x) = -rnd x := by
  unfold rnd
  rw [fexp_neg, neg_div, rne_neg]
  push_cast
  ring

theorem rnd_nonneg {x : ℚ} (h : 0 ≤ x) : 0 ≤ rnd x := by
  unfold rnd
  apply mul_nonneg _ (pow2_pos _).le
  have : (0:ℤ) ≤ rne (x / pow2 (fexp x)) :=
    rne_nonneg (div_nonneg h (pow2_pos _).le)
  exact_mod_cast this

theorem rnd_nonpos {x : ℚ} (h : x ≤ 0) : rnd x ≤ 0 := by
  have := rnd_nonneg (x := -x) (by linarith)
  rw [rnd_neg] at this
  linarith

theorem rnd_abs (x : ℚ) : rnd |x| = |rnd x| := by
  rcases le_or_lt 0 x with hx | hx
  · rw [abs_of_nonneg hx, abs_of_nonneg (rnd_nonneg hx)]
  · rw [abs_of_neg hx, rnd_neg, abs_of_nonpos (rnd_nonpos hx.le)]

theorem rnd_exact_core {m s : ℤ} (h1 : 1 ≤ m) (hm : m < 2 ^ 24) (hs : -149 ≤ s) :
    rnd ((m : ℚ) * pow2 s) = (m : ℚ) * pow2 s := by
  set x : ℚ := (m : ℚ) * pow2 s with hxdef
  have hmQ : (1 : ℚ) ≤ (m : ℚ) := by exact_mod_cast h1
  have hmQ' : (m : ℚ) < ((2 ^ 24 : ℤ) : ℚ) := by exact_mod_cast hm
  have hxpos : 0 < x := by
    rw [hxdef]
    exact mul_pos (by linarith) (pow2_pos s)
  have hlb : pow2 s ≤ x := by
    rw [hxdef]
    nlinarith [pow2_pos s]
  have hub : x < pow2 (s + 24) := by
    rw [hxdef, pow2_add]
    have h224 : pow2 24 = ((2 ^ 24 : ℤ) : ℚ) := by
      rw [show ((24:ℤ)) = ((24 : ℕ) : ℤ) from rfl, pow2_natCast]
      push_cast
      ring
    rw [mul_comm (pow2 s) (pow2 24), h224]
    nlinarith [pow2_pos s]
  set e := qlog2 x with he
  have hspec := qlog2_spec x hxpos
  have hes : s ≤ e := by
    have := qlog2_mono (pow2_pos s) hlb
    rw [qlog2_pow2] at this
    exact this
  have heub : e < s + 24 := by
    have : pow2 e ≤ x := hspec.1
    have h2 : pow2 e < pow2 (s + 24) := lt_of_le_of_lt this hub
    exact pow2_lt_pow2_iff.mp h2
  have hfexp : fexp x ≤ s := by
    unfold fexp
    rw [abs_of_pos hxpos, ← he]
    omega
  set f := fexp x with hf
  have hfge : -149 ≤ f := fexp_ge x
  have hd : 0 ≤ s - f := by omega
  have hpows : pow2 s / pow2 f = pow2 (s - f) := by
    rw [div_eq_iff (pow2_ne_zero f), ← pow2_add]
    congr 1
    ring
  have hcast : pow2 (s - f) = ((2 ^ (s - f).toNat : ℕ) : ℚ) := by
    rw [show s - f = (((s - f).toNat : ℕ) : ℤ) from (Int.toNat_of_nonneg hd).symm]
    rw [pow2_natCast]
    rw [Int.toNat_of_nonneg (by omega)]
  have ht : x / pow2 f = ((m * (2 ^ (s - f).toNat : ℕ) : ℤ) : ℚ) := by
    rw [hxdef, mul_div_assoc, hpows, hcast]
    push_cast
    ring
  unfold rnd
  rw [← hf, ht, rne_intCast, ← ht]
  exact div_mul_cancel₀ x (pow2_ne_zero f)

theorem pow2_one : pow2 1 = 2 := by norm_num [pow2]

theorem rnd_exact {m s : ℤ} (hm : |m| ≤ 2 ^ 24) (hs : -149 ≤ s) :
    rnd ((m : ℚ) * pow2 s) = (m : ℚ) * pow2 s := by
  have hm' : -(2 ^ 24) ≤ m ∧ m ≤ 2 ^ 24 := abs_le.mp hm
  have key : ∀ k : ℤ, 1 ≤ k → k ≤ 2 ^ 24 → ∀ t : ℤ, -149 ≤ t →
      rnd ((k : ℚ) * pow2 t) = (k : ℚ) * pow2 t := by
    intro k hk1 hk2 t ht
    rcases eq_or_lt_of_le hk2 with heq | hlt
    · have hre : ((k : ℤ) : ℚ) * pow2 t = ((8388608 : ℤ) : ℚ) * pow2 (t + 1) := by
        rw [heq, pow2_add, pow2_one]
        push_cast
        ring
      rw [hre]
      exact rnd_exact_core (by norm_num) (by norm_num) (by omega)
    · exact rnd_exact_core hk1 hlt ht
  rcases lt_trichotomy m 0 with hneg | hzero | hpos
  · have h1 := key (-m) (by omega) (by omega) s hs
    have hneg' : ((m : ℤ) : ℚ) * pow2 s = -(((-m : ℤ) : ℚ) * pow2 s) := by push_cast; ring
    rw [hneg', rnd_neg, h1]
  · rw [hzero]
    push_cast
    rw [zero_mul, rnd_zero]
  · exact key m hpos (by omega) s hs

theorem pow2_intCast (n : ℕ) : pow2 (n : ℤ) = ((2 ^ n : ℤ) : ℚ) := by
  rw [pow2_natCast]; push_cast; ring

theorem pow2_toNat {d : ℤ} (hd : 0 ≤ d) : pow2 d = ((2 ^ d.toNat : ℤ) : ℚ) := by
  rw [show d = ((d.toNat : ℕ) : ℤ) from (Int.toNat_of_nonneg hd).symm, pow2_intCast]
  rw [Int.toNat_of_nonneg (by omega)]

theorem rnd_mono {x y : ℚ} (h : x ≤ y) : rnd x ≤ rnd y := by
  have core : ∀ a b : ℚ, 0 < a → a ≤ b → rnd a ≤ rnd b := by
    intro a b ha hab
    have hb : 0 < b := lt_of_lt_of_le ha hab
    have hlog : qlog2 a ≤ qlog2 b := qlog2_mono ha hab
    have hfa : fexp a = max (qlog2 a - 23) (-149) := by unfold fexp; rw [abs_of_pos ha]
    have hfb : fexp b = max (qlog2 b - 23) (-149) := by unfold fexp; rw [abs_of_pos hb]
    have hff : fexp a ≤ fexp b := by rw [hfa, hfb]; omega
    rcases eq_or_lt_of_le hff with heq | hflt
    · unfold rnd
      rw [← heq]
      have hdiv : a / pow2 (fexp a) ≤ b / pow2 (fexp a) :=
        (div_le_div_iff_of_pos_right (pow2_pos _)).mpr hab
      exact mul_le_mul_of_nonneg_right (by exact_mod_cast rne_mono hdiv) (pow2_pos _).le
    · set eb := qlog2 b with heb
      have hfb' : fexp b = eb - 23 := by
        rw [hfb]; rw [hfa] at hflt; omega
      have hblb : pow2 eb ≤ b := (qlog2_spec b hb).1
      have hq23 : ((2 ^ 23 : ℤ) : ℚ) * pow2 (fexp b) = pow2 eb := by
        rw [← pow2_intCast 23, ← pow2_add, hfb']
        congr 1
        omega
      have ht : ((2 ^ 23 : ℤ) : ℚ) ≤ b / pow2 (fexp b) := by
        rw [le_div_iff₀ (pow2_pos _), hq23]
        exact hblb
      have hrne : (2 ^ 23 : ℤ) ≤ rne (b / pow2 (fexp b)) := by
        have := rne_mono ht
        rwa [rne_intCast] at this
      have h1 : pow2 eb ≤ rnd b := by
        unfold rnd
        calc pow2 eb = ((2 ^ 23 : ℤ) : ℚ) * pow2 (fexp b) := hq23.symm
          _ ≤ (rne (b / pow2 (fexp b)) : ℚ) * pow2 (fexp b) :=
              mul_le_mul_of_nonneg_right (by exact_mod_cast hrne) (pow2_pos _).le
      have hea : qlog2 a < eb := by
        rw [hfa] at hflt
        rw [hfb'] at hflt
        omega
      have haub : a ≤ pow2 eb := by
        have := (qlog2_spec a ha).2
        calc a ≤ pow2 (qlog2 a + 1) := this.le
          _ ≤ pow2 eb := pow2_le_pow2 (by omega)
      have hd0 : 0 ≤ eb - fexp a := by
        rw [hfb'] at hflt
        omega
      have hcast2 : pow2 (eb - fexp a) = ((2 ^ (eb - fexp a).toNat : ℤ) : ℚ) :=
        pow2_toNat hd0
      have hsplit : pow2 (eb - fexp a) * pow2 (fexp a) = pow2 eb := by
        rw [← pow2_add]; congr 1; ring
      have ht' : a / pow2 (fexp a) ≤ ((2 ^ (eb - fexp a).toNat : ℤ) : ℚ) := by
        rw [div_le_iff₀ (pow2_pos _), ← hcast2, hsplit]
        exact haub
      have hrne' : rne (a / pow2 (fexp a)) ≤ 2 ^ (eb - fexp a).toNat := by
        have := rne_mono ht'
        rwa [rne_intCast] at this
      have h2 : rnd a ≤ pow2 eb := by
        unfold rnd
        calc (rne (a / pow2 (fexp a)) : ℚ) * pow2 (fexp a)
            ≤ ((2 ^ (eb - fexp a).toNat : ℤ) : ℚ) * pow2 (fexp a) :=
              mul_le_mul_of_nonneg_right (by exact_mod_cast hrne') (pow2_pos _).le
          _ = pow2 (eb - fexp a) * pow2 (fexp a) := by rw [hcast2]
          _ = pow2 eb := hsplit
      linarith
  rcases le_or_lt x 0 with hx | hx
  · rcases le_or_lt y 0 with hy | hy
    · rcases eq_or_lt_of_le hy with hy0 | hyneg
      · rw [hy0, rnd_zero]
        exact rnd_nonpos hx
      · have := core (-y) (-x) (by linarith) (by linarith)
        rw [rnd_neg, rnd_neg] at this
        linarith
    · have h1 : rnd x ≤ 0 := rnd_nonpos hx
      have h2 : 0 ≤ rnd y := rnd_nonneg hy.le
      linarith
  · exact core x y hx h

/-! ## Claim theorems -/

set_option maxRecDepth 8000000

/-- Claim C9: every status register type decodes by masking the raw value
against its fixed flag vocabulary - `bits (from_raw raw) = raw AND mask` for
each register - so a set bit outside the vocabulary (such as 0x04 for the
communication/logic register) is dropped without error. -/
theorem claim_C9 :
    (∀ raw : ℕ, (StatusByte.from_raw raw).bits = raw &&& 0xFF) ∧
    (∀ raw : ℕ, (StatusWord.from_raw raw).bits = raw &&& 0xFFFF) ∧
    (∀ raw : ℕ, (StatusVout.from_raw raw).bits = raw &&& 0xFF) ∧
    (∀ raw : ℕ, (StatusIout.from_raw raw).bits = raw &&& 0xFF) ∧
    (∀ raw : ℕ, (StatusInput.from_raw raw).bits = raw &&& 0xFF) ∧
    (∀ raw : ℕ, (StatusTemperature.from_raw raw).bits = raw &&& 0xF0) ∧
    (∀ raw : ℕ, (StatusCml.from_raw raw).bits = raw &&& 0xFB) ∧
    (∀ raw : ℕ, (StatusOther.from_raw raw).bits = raw &&& 0xFF) ∧
    (∀ raw : ℕ, (StatusFans12.from_raw raw).bits = raw &&& 0xFC) ∧
    (∀ raw : ℕ, (StatusFans34.from_raw raw).bits = raw &&& 0xFC) ∧
    (StatusCml.from_raw 0x04).bits = 0 ∧
    (StatusCml.from_raw 0x04).bits &&& 0x04 = 0 :=
  ⟨fun _ => rfl, fun _ => rfl, fun _ => rfl, fun _ => rfl, fun _ => rfl, fun _ => rfl,
   fun _ => rfl, fun _ => rfl, fun _ => rfl, fun _ => rfl, by decide, by decide⟩

/-- Claim C3: VOUT_MODE round-trip - selectors 00/01 round-trip exactly,
selectors 10/11 re-encode with the low five bits cleared; 0x13 decodes to
FixedExponent(-13) non-relative and re-encodes to 0x13; 0x5F decodes to
DirectFormat and re-encodes to 0x40. -/
theorem claim_C3 :
    (∀ raw : ℕ, raw < 256 → ((raw >>> 5) &&& 0x03 = 0 ∨ (raw >>> 5) &&& 0x03 = 1) →
      VoutMode.to_raw (VoutMode.from_raw raw) = raw) ∧
    (∀ raw : ℕ, raw < 256 → ((raw >>> 5) &&& 0x03 = 2 ∨ (raw >>> 5) &&& 0x03 = 3) →
      VoutMode.to_raw (VoutMode.from_raw raw) = raw &&& 0xE0) ∧
    VoutMode.from_raw 0x13 = ⟨false, VoutModeType.ulinear16 (-13)⟩ ∧
    VoutMode.to_raw (VoutMode.from_raw 0x13) = 0x13 ∧
    VoutMode.from_raw 0x5F = ⟨false, VoutModeType.direct⟩ ∧
    VoutMode.to_raw (VoutMode.from_raw 0x5F) = 0x40 := by
  refine ⟨?_, ?_, by decide, by decide, by decide, by decide⟩
  · decide
  · decide

/-- Witness for C3 at raw bytes 0x13 (selector 00) and 0x40 (selector 10). -/
theorem claim_C3_witness :
    VoutMode.to_raw (VoutMode.from_raw 0x13) = 0x13 ∧
    VoutMode.to_raw (VoutMode.from_raw 0x40) = 0x40 &&& 0xE0 :=
  ⟨claim_C3.1 0x13 (by norm_num) (Or.inl (by decide)),
   claim_C3.2.1 0x40 (by norm_num) (Or.inl (by decide))⟩

/-- Claim C8: the coefficients parser rejects buffers shorter than 5 bytes and
otherwise reads m and b as little-endian signed 16-bit values from bytes 0..2
and 2..4 and R as a signed byte at index 4, ignoring excess bytes; the 5-byte
buffer [0x0A,0x00,0x05,0x00,0x00] parses to m=10, b=5, R=0 and a 3-byte buffer
fails. -/
theorem claim_C8 :
    (∀ data : List ℕ, data.length < 5 →
      DirectCoefficients.from_coefficients_response data = none) ∧
    (∀ data : List ℕ, 5 ≤ data.length →
      DirectCoefficients.from_coefficients_response data =
        some ⟨i16ofu16 (data.getD 0 0 + 256 * data.getD 1 0),
              i16ofu16 (data.getD 2 0 + 256 * data.getD 3 0),
              i8ofu8 (data.getD 4 0)⟩) ∧
    DirectCoefficients.from_coefficients_response [0x0A, 0x00, 0x05, 0x00, 0x00] =
      some ⟨10, 5, 0⟩ ∧
    DirectCoefficients.from_coefficients_response [1, 2, 3] = none := by
  refine ⟨?_, ?_, by decide, by decide⟩
  · intro data h
    unfold DirectCoefficients.from_coefficients_response
    rw [if_pos h]
  · intro data h
    unfold DirectCoefficients.from_coefficients_response
    rw [if_neg (by omega)]

/-- Witness for C8 at a 5-byte buffer and a 3-byte buffer. -/
theorem claim_C8_witness :
    DirectCoefficients.from_coefficients_response [0x0A, 0x00, 0x05, 0x00, 0x00] =
      some ⟨i16ofu16 (0x0A + 256 * 0x00), i16ofu16 (0x05 + 256 * 0x00), i8ofu8 0x00⟩ ∧
    DirectCoefficients.from_coefficients_response [1, 2, 3] = none :=
  ⟨claim_C8.2.1 [0x0A, 0x00, 0x05, 0x00, 0x00] (by norm_num),
   claim_C8.1 [1, 2, 3] (by norm_num)⟩

/-! ## Lemmas: exact F32 values -/

theorem maxFinite_eq : maxFinite = ((16777215 : ℤ) : ℚ) * pow2 104 := by
  norm_num [maxFinite]

theorem rnd_maxFinite : rnd maxFinite = maxFinite := by
  rw [maxFinite_eq]
  exact rnd_exact (by norm_num) (by norm_num)

theorem maxFinite_pos : 0 < maxFinite := by
  rw [maxFinite_eq]
  exact mul_pos (by norm_num) (pow2_pos _)

theorem pow2_le_maxFinite {n : ℤ} (h : n ≤ 104) : pow2 n ≤ maxFinite := by
  rw [maxFinite_eq]
  have h1 : pow2 n ≤ pow2 104 := pow2_le_pow2 h
  have h2 := pow2_pos (104 : ℤ)
  push_cast
  linarith

theorem maxFinite_lt : maxFinite < pow2 128 := by
  rw [maxFinite_eq, show (128 : ℤ) = 24 + 104 from rfl, pow2_add]
  apply mul_lt_mul_of_pos_right _ (pow2_pos 104)
  rw [show ((24 : ℤ)) = ((24 : ℕ) : ℤ) from rfl, pow2_intCast]
  norm_num

theorem rnd_abs_le_max {x : ℚ} (h : |x| ≤ maxFinite) : |rnd x| ≤ maxFinite := by
  rw [← rnd_abs]
  calc rnd |x| ≤ rnd maxFinite := rnd_mono h
    _ = maxFinite := rnd_maxFinite

theorem fl_fin_of_abs_le {x : ℚ} (h : |x| ≤ maxFinite) : fl x = F32.fin (rnd x) := by
  unfold fl
  rw [if_pos (lt_of_le_of_lt (rnd_abs_le_max h) maxFinite_lt)]

theorem abs_int_mul_pow2_le {m s : ℤ} (hm : |m| ≤ 2 ^ 24) (hs : s ≤ 80) :
    |(m : ℚ) * pow2 s| ≤ maxFinite := by
  rw [abs_mul, abs_of_pos (pow2_pos s)]
  have h1 : |(m : ℚ)| ≤ pow2 24 := by
    rw [show ((24 : ℤ)) = ((24 : ℕ) : ℤ) from rfl, pow2_intCast]
    have : ((|m| : ℤ) : ℚ) ≤ ((2 ^ 24 : ℤ) : ℚ) := by exact_mod_cast hm
    calc |(m : ℚ)| = ((|m| : ℤ) : ℚ) := by push_cast; rfl
      _ ≤ _ := this
  have h2 : pow2 s ≤ pow2 80 := pow2_le_pow2 hs
  calc |(m : ℚ)| * pow2 s ≤ pow2 24 * pow2 80 := by
        apply mul_le_mul h1 h2 (pow2_pos s).le (pow2_pos 24).le
    _ = pow2 104 := by rw [← pow2_add]; norm_num
    _ ≤ maxFinite := pow2_le_maxFinite (by norm_num)

theorem fl_exact {m s : ℤ} (hm : |m| ≤ 2 ^ 24) (hs : -149 ≤ s) (hub : s ≤ 80) :
    fl ((m : ℚ) * pow2 s) = F32.fin ((m : ℚ) * pow2 s) := by
  rw [fl_fin_of_abs_le (abs_int_mul_pow2_le hm hub), rnd_exact hm hs]

theorem fl_intCast {k : ℤ} (h : |k| ≤ 2 ^ 24) : fl (k : ℚ) = F32.fin (k : ℚ) := by
  have hre : (k : ℚ) = (k : ℚ) * pow2 0 := by rw [pow2_zero, mul_one]
  rw [hre, fl_exact h (by norm_num) (by norm_num)]

theorem ofInt_eq {k : ℤ} (h : |k| ≤ 2 ^ 24) : F32.ofInt k = F32.fin (k : ℚ) :=
  fl_intCast h

theorem ofNat_eq {n : ℕ} (h : n ≤ 2 ^ 24) : F32.ofNat n = F32.fin (n : ℚ) := by
  have habs : |(n : ℤ)| ≤ 2 ^ 24 := by
    rw [abs_of_nonneg (by omega : (0:ℤ) ≤ (n : ℤ))]
    omega
  have hcast : ((n : ℕ) : ℚ) = (((n : ℤ)) : ℚ) := by push_cast; rfl
  unfold F32.ofNat
  rw [hcast, fl_intCast habs]

theorem pow2_inv (n : ℤ) : (1 : ℚ) / pow2 n = pow2 (-n) := by
  rw [eq_comm, eq_div_iff (pow2_ne_zero n), ← pow2_add]
  norm_num [pow2_zero]

theorem fl_pow2 {n : ℤ} (h1 : -149 ≤ n) (h2 : n ≤ 80) : fl (pow2 n) = F32.fin (pow2 n) := by
  have : pow2 n = ((1 : ℤ) : ℚ) * pow2 n := by norm_num
  rw [this, fl_exact (by norm_num) h1 h2]

theorem fadd_fin (a b : ℚ) : fadd (F32.fin a) (F32.fin b) = fl (a + b) := rfl

theorem fmul_fin (a b : ℚ) : fmul (F32.fin a) (F32.fin b) = fl (a * b) := rfl

theorem fsub_fin (a b : ℚ) : fsub (F32.fin a) (F32.fin b) = fl (a - b) := by
  show fadd (F32.fin a) (F32.fin (-b)) = fl (a - b)
  rw [fadd_fin, sub_eq_add_neg]

theorem fdiv_fin (a b : ℚ) (hb : b ≠ 0) :
    fdiv (F32.fin a) (F32.fin b) = fl (a / b) := by
  show (if b = 0 then (if a = 0 then F32.nan else F32.inf (decide (a < 0))) else fl (a / b)) =
    fl (a / b)
  rw [if_neg hb]

theorem fabs_fin (a : ℚ) : fabs (F32.fin a) = F32.fin |a| := rfl

theorem exp2f_eq_small {n : ℤ} (h1 : -31 < n) (h2 : n < 31) :
    exp2f n = F32.fin (pow2 n) := by
  unfold exp2f
  rcases le_or_lt 0 n with hn | hn
  · rw [if_pos ⟨hn, h2⟩]
    have hcast : ((2 ^ n.toNat : ℕ) : ℚ) = pow2 n := by
      rw [show n = ((n.toNat : ℕ) : ℤ) from (Int.toNat_of_nonneg hn).symm, pow2_natCast]
      rw [Int.toNat_of_nonneg (by omega)]
    unfold F32.ofNat
    rw [hcast, fl_pow2 (by omega) (by omega)]
  · rw [if_neg (by omega), if_pos ⟨hn, h1⟩]
    have hcast : ((2 ^ (-n).toNat : ℕ) : ℚ) = pow2 (-n) := by
      rw [show -n = (((-n).toNat : ℕ) : ℤ) from (Int.toNat_of_nonneg (by omega)).symm,
        pow2_natCast]
      rw [Int.toNat_of_nonneg (by omega)]
    unfold F32.ofNat
    rw [hcast, fl_pow2 (by omega) (by omega)]
    show fdiv (F32.fin 1) (F32.fin (pow2 (-n))) = F32.fin (pow2 n)
    rw [fdiv_fin _ _ (pow2_ne_zero (-n)), pow2_inv, fl_pow2 (by omega) (by omega), neg_neg]

/-! ## Lemmas: sign extension -/

theorem sext5_eq : ∀ t : ℕ, t < 32 → sext5viaI8 t = toSigned 5 t := by decide

theorem sext11_eq : ∀ y : ℕ, y < 2048 → sext11viaI16 y = toSigned 11 y := by
  intro y hy
  unfold sext11viaI16 toSigned
  have hmod : y % 65536 = y := Nat.mod_eq_of_lt (by omega)
  rw [hmod]
  have hfirst : i16ofu16 y = (y : ℤ) := by
    unfold i16ofu16
    rw [if_pos (by omega)]
  rw [hfirst]
  have hrange : (0 : ℤ) ≤ (y : ℤ) * 32 ∧ (y : ℤ) * 32 < 65536 := by omega
  have hmod2 : ((y : ℤ) * 32) % 65536 = (y : ℤ) * 32 :=
    Int.emod_eq_of_lt hrange.1 hrange.2
  rw [hmod2]
  have htn : (Int.toNat ((y : ℤ) * 32)) = y * 32 := by omega
  rw [htn]
  unfold i16ofu16
  by_cases hsmall : y * 32 < 32768
  · rw [if_pos hsmall]
    have : ((y * 32 : ℕ) : ℤ) = 32 * (y : ℤ) := by push_cast; ring
    rw [this, Int.mul_fdiv_cancel_left _ (by norm_num), if_pos (by norm_num; omega)]
  · rw [if_neg hsmall]
    have : ((y * 32 : ℕ) : ℤ) - 65536 = 32 * ((y : ℤ) - 2048) := by push_cast; ring
    rw [this, Int.mul_fdiv_cancel_left _ (by norm_num), if_neg (by norm_num; omega)]
    norm_num

theorem toSigned5_bounds : ∀ t : ℕ, t < 32 → -16 ≤ toSigned 5 t ∧ toSigned 5 t ≤ 15 := by
  intro t ht
  unfold toSigned
  split_ifs with h <;> norm_num at h ⊢ <;> omega

theorem toSigned11_bounds : ∀ y : ℕ, y < 2048 →
    -1024 ≤ toSigned 11 y ∧ toSigned 11 y ≤ 1023 := by
  intro y hy
  unfold toSigned
  split_ifs with h <;> norm_num at h ⊢ <;> omega

/-- Claim C2: `Linear11::to_f32` sign-extends bits 15:11 as the exponent N and
bits 10:0 as the mantissa Y and returns exactly Y * 2^N; raw 0xF0D0 and raw
0xE340 both decode to 52.0. -/
theorem claim_C2 :
    (∀ raw : ℕ, raw < 65536 →
      Linear11.to_f32 ⟨raw⟩ =
        F32.fin ((toSigned 11 (raw % 2048) : ℚ) * pow2 (toSigned 5 (raw / 2048)))) ∧
    Linear11.to_f32 ⟨0xF0D0⟩ = F32.fin 52 ∧
    Linear11.to_f32 ⟨0xE340⟩ = F32.fin 52 := by
  refine ⟨?_, by decide, by decide⟩
  intro raw hraw
  unfold Linear11.to_f32
  have hand : raw &&& 0x7FF = raw % 2048 := Nat.and_pow_two_sub_one_eq_mod raw 11
  have hshift : raw >>> 11 = raw / 2048 := Nat.shiftRight_eq_div_pow raw 11
  rw [hand, hshift]
  have hylt : raw % 2048 < 2048 := Nat.mod_lt raw (by norm_num)
  have htlt : raw / 2048 < 32 := by omega
  rw [sext11_eq _ hylt, sext5_eq _ htlt]
  rcases toSigned11_bounds _ hylt with ⟨hy1, hy2⟩
  rcases toSigned5_bounds _ htlt with ⟨ht1, ht2⟩
  set Y := toSigned 11 (raw % 2048)
  set N := toSigned 5 (raw / 2048)
  rw [ofInt_eq (by rw [abs_le]; omega : |Y| ≤ 2 ^ 24)]
  rw [exp2f_eq_small (by omega) (by omega)]
  rw [fmul_fin]
  rw [show (Y : ℚ) * pow2 N = ((Y : ℤ) : ℚ) * pow2 N from rfl]
  rw [fl_exact (by rw [abs_le]; omega) (by omega) (by omega)]

/-- Witness for C2 at raw word 0. -/
theorem claim_C2_witness :
    Linear11.to_f32 ⟨0⟩ =
      F32.fin ((toSigned 11 (0 % 2048) : ℚ) * pow2 (toSigned 5 (0 / 2048))) :=
  claim_C2.1 0 (by norm_num)

/-- Counterexample for C4 as stated: at exponent 31 the code multiplies by
`f32::MAX` (the saturated `exp2f`), not by 2^31, so `to_f32(1, 31)` is not
1 * 2^31. -/
theorem claim_C4_counterexample : ULinear16.to_f32 ⟨1⟩ 31 ≠ F32.fin (pow2 31) := by decide

/-- Claim C4 (amended): for every raw u16 and every exponent strictly between
-31 and 31, `ULinear16::to_f32` returns exactly raw * 2^exponent with no
validation of the exponent; outside that band the saturated `exp2f` value is
used instead. -/
theorem claim_C4 :
    ∀ raw : ℕ, raw < 65536 → ∀ e : ℤ, -31 < e → e < 31 →
      ULinear16.to_f32 ⟨raw⟩ e = F32.fin ((raw : ℚ) * pow2 e) := by
  intro raw hraw e he1 he2
  show fmul (F32.ofNat raw) (exp2f e) = _
  rw [ofNat_eq (by omega), exp2f_eq_small he1 he2, fmul_fin]
  rw [show ((raw : ℕ) : ℚ) * pow2 e = ((raw : ℤ) : ℚ) * pow2 e from by push_cast; ring]
  rw [fl_exact (by rw [abs_of_nonneg (by omega : (0:ℤ) ≤ (raw : ℤ))]; omega)
    (by omega) (by omega)]

/-- Witness for C4 at raw 0x2000 with exponent -13 (the 1.0 V decode case). -/
theorem claim_C4_witness :
    ULinear16.to_f32 ⟨0x2000⟩ (-13) = F32.fin ((0x2000 : ℚ) * pow2 (-13)) :=
  claim_C4 0x2000 (by norm_num) (-13) (by norm_num) (by norm_num)

/-! ## Lemmas: the POW10 table -/

theorem POW10_length : POW10.length = 17 := by decide

theorem pow10_none {j : ℤ} (hout : j < -8 ∨ 8 < j) (h1 : -128 ≤ j) (h2 : j ≤ 127) :
    pow10 j = none := by
  unfold pow10
  apply List.get?_eq_none.mpr
  rw [POW10_length]
  omega

theorem pow10_small : ∀ j : ℤ, -8 ≤ j → j ≤ 8 → pow10 j = some (fl ((10 : ℚ) ^ j)) := by
  intro j h1 h2
  interval_cases j <;> decide

/-- Claim C6: with R outside [-8, 8] the DIRECT decode silently uses scale 1.0
instead of 10^(-R) and returns the f32 evaluation of (1/m) * (raw - b); it is
total (never fails or rejects the out-of-range R). -/
theorem claim_C6 :
    ∀ m b r raw : ℤ, -32768 ≤ m → m ≤ 32767 → -32768 ≤ b → b ≤ 32767 →
      -128 ≤ r → r ≤ 127 → (r < -8 ∨ 8 < r) → -32768 ≤ raw → raw ≤ 32767 →
      DirectCoefficients.to_f32 ⟨m, b, r⟩ raw =
        fmul (fdiv (F32.fin 1) (F32.ofInt m)) (fsub (F32.ofInt raw) (F32.ofInt b)) := by
  intro m b r raw hm1 hm2 hb1 hb2 hr1 hr2 hout hraw1 hraw2
  show (let nr : ℤ := if r = -128 then -128 else -r
        let scale := (pow10 nr).getD (F32.fin 1)
        fmul (fdiv (F32.fin 1) (F32.ofInt m))
          (fsub (fmul (F32.ofInt raw) scale) (F32.ofInt b))) = _
  have hnone : pow10 (if r = -128 then (-128 : ℤ) else -r) = none := by
    by_cases hc : r = -128
    · rw [if_pos hc]
      exact pow10_none (by omega) (by norm_num) (by norm_num)
    · rw [if_neg hc]
      exact pow10_none (by omega) (by omega) (by omega)
  simp only [hnone, Option.getD_none]
  have hofraw : F32.ofInt raw = F32.fin (raw : ℚ) := ofInt_eq (by rw [abs_le]; omega)
  rw [hofraw, fmul_fin, mul_one, fl_intCast (by rw [abs_le]; omega)]

/-- Witness for C6 at m=10, b=5, R=9, raw=35. -/
theorem claim_C6_witness :
    DirectCoefficients.to_f32 ⟨10, 5, 9⟩ 35 =
      fmul (fdiv (F32.fin 1) (F32.ofInt 10)) (fsub (F32.ofInt 35) (F32.ofInt 5)) :=
  claim_C6 10 5 9 35 (by norm_num) (by norm_num) (by norm_num) (by norm_num) (by norm_num)
    (by norm_num) (Or.inr (by norm_num)) (by norm_num) (by norm_num)

/-- Counterexample for C5 as stated: the claim computes
y = round_half_away_from_zero(m*value + b) * 10^R (rounding before scaling).
With m=1, b=0, R=1 and value = 0.26f32 (exactly 1090519/4194304) the claim
formula yields 0 while the code (which rounds after scaling) returns 3. -/
theorem claim_C5_counterexample :
    DirectCoefficients.from_f32 ⟨1, 0, 1⟩ (F32.fin (1090519 / 4194304)) ≠
      some (castI32 (fmul
        (round_f32 (fadd (fmul (F32.ofInt 1) (F32.fin (1090519 / 4194304))) (F32.ofInt 0)))
        (fl ((10 : ℚ) ^ (1 : ℤ))))) := by decide

/-- Claim C5 (amended): the DIRECT encode computes
y = round_half_away_from_zero((m*value + b) * 10^R), with the scale falling
back to 1.0 when R is outside [-8, 8], and returns Some y exactly when y fits
in a signed 16-bit value; with m=10, b=5, R=0 encoding 3.0 yields raw 35. -/
theorem claim_C5 :
    (∀ m b r : ℤ, -32768 ≤ m → m ≤ 32767 → -32768 ≤ b → b ≤ 32767 →
      -128 ≤ r → r ≤ 127 → ∀ v : F32,
      DirectCoefficients.from_f32 ⟨m, b, r⟩ v =
        (let scale := if -8 ≤ r ∧ r ≤ 8 then fl ((10 : ℚ) ^ r) else F32.fin 1
         let y := castI32 (round_f32 (fmul (fadd (fmul (F32.ofInt m) v) (F32.ofInt b)) scale))
         if -32768 ≤ y ∧ y ≤ 32767 then some y else none)) ∧
    DirectCoefficients.from_f32 ⟨10, 5, 0⟩ (F32.fin 3) = some 35 := by
  refine ⟨?_, by decide⟩
  intro m b r hm1 hm2 hb1 hb2 hr1 hr2 v
  show (let scale := (pow10 r).getD (F32.fin 1)
        let y_f := fmul (fadd (fmul (F32.ofInt m) v) (F32.ofInt b)) scale
        let y := castI32 (round_f32 y_f)
        if y < -32768 || 32767 < y then none else some y) = _
  have hscale : (pow10 r).getD (F32.fin 1) =
      (if -8 ≤ r ∧ r ≤ 8 then fl ((10 : ℚ) ^ r) else F32.fin 1) := by
    by_cases hc : -8 ≤ r ∧ r ≤ 8
    · rw [if_pos hc, pow10_small r hc.1 hc.2, Option.getD_some]
    · rw [if_neg hc, pow10_none (by omega) hr1 hr2, Option.getD_none]
  rw [hscale]
  set y := castI32 (round_f32 (fmul (fadd (fmul (F32.ofInt m) v) (F32.ofInt b))
    (if -8 ≤ r ∧ r ≤ 8 then fl ((10 : ℚ) ^ r) else F32.fin 1)))
  by_cases hy : -32768 ≤ y ∧ y ≤ 32767
  · rw [if_pos hy, if_neg (by simp only [Bool.or_eq_true, decide_eq_true_eq]; omega)]
  · rw [if_neg hy, if_pos (by simp only [Bool.or_eq_true, decide_eq_true_eq]; omega)]

/-- Witness for C5 (amended) at m=10, b=5, R=0, value 3.0. -/
theorem claim_C5_witness :
    DirectCoefficients.from_f32 ⟨10, 5, 0⟩ (F32.fin 3) =
      (let scale := if -8 ≤ (0 : ℤ) ∧ (0 : ℤ) ≤ 8 then fl ((10 : ℚ) ^ (0 : ℤ)) else F32.fin 1
       let y := castI32 (round_f32 (fmul (fadd (fmul (F32.ofInt 10) (F32.fin 3)) (F32.ofInt 5))
         scale))
       if -32768 ≤ y ∧ y ≤ 32767 then some y else none) :=
  claim_C5.1 10 5 0 (by norm_num) (by norm_num) (by norm_num) (by norm_num) (by norm_num)
    (by norm_num) (F32.fin 3)

/-- Counterexample for C7 as stated: at exponent 31 the code divides by
`f32::MAX` (the saturated `exp2f`) rather than 2^31, so encoding 2^32 yields
raw 0 while the claim formula round_half_away_from_zero(value / 2^31) gives
raw 2. -/
theorem claim_C7_counterexample :
    ULinear16.from_f32 (F32.fin (pow2 32)) 31 ≠
      some ⟨castU32 (round_f32 (fdiv (F32.fin (pow2 32)) (F32.fin (pow2 31))))⟩ := by decide

/-- Claim C7 (amended): for exponents strictly between -31 and 31,
`ULinear16::from_f32` fails exactly on NaN, infinite or negative values or
when round_half_away_from_zero(value / 2^exponent) exceeds 65535, and
otherwise returns that raw value; encoding 0.300f32 with exponent -12 yields
raw 1229. -/
theorem claim_C7 :
    (∀ e : ℤ, -31 < e → e < 31 →
      (ULinear16.from_f32 F32.nan e = none) ∧
      (∀ s : Bool, ULinear16.from_f32 (F32.inf s) e = none) ∧
      (∀ q : ℚ, q < 0 → ULinear16.from_f32 (F32.fin q) e = none) ∧
      (∀ q : ℚ, 0 ≤ q →
        ULinear16.from_f32 (F32.fin q) e =
          (let raw := castU32 (round_f32 (fdiv (F32.fin q) (F32.fin (pow2 e))))
           if 65535 < raw then none else some ⟨raw⟩))) ∧
    ULinear16.from_f32 (F32.fin (5033165 / 16777216)) (-12) = some ⟨1229⟩ := by
  refine ⟨?_, by decide⟩
  intro e he1 he2
  refine ⟨rfl, fun s => rfl, ?_, ?_⟩
  · intro q hq
    unfold ULinear16.from_f32
    have hcond : (!(F32.fin q).isFinite || flt (F32.fin q) (F32.fin 0)) = true := by
      show (!true || decide (q < 0)) = true
      simp [hq]
    rw [if_pos hcond]
  · intro q hq
    unfold ULinear16.from_f32
    have hcond : (!(F32.fin q).isFinite || flt (F32.fin q) (F32.fin 0)) = false := by
      show (!true || decide (q < 0)) = false
      simp [not_lt.mpr hq]
    rw [hcond]
    simp only [Bool.false_eq_true, if_false]
    rw [exp2f_eq_small he1 he2]

/-- Witness for C7 (amended) at value 1.0 with exponent 0. -/
theorem claim_C7_witness :
    ULinear16.from_f32 (F32.fin 1) 0 =
      (let raw := castU32 (round_f32 (fdiv (F32.fin 1) (F32.fin (pow2 0))))
       if 65535 < raw then none else some ⟨raw⟩) :=
  (claim_C7.1 0 (by norm_num) (by norm_num)).2.2.2 1 (by norm_num)

/-! ## Lemmas: bounds for the Linear11 encode loop -/

theorem maxFinite_eq_sub : maxFinite = pow2 128 - pow2 104 := by
  rw [maxFinite_eq, show (128 : ℤ) = 24 + 104 from rfl, pow2_add]
  rw [show ((24 : ℤ)) = ((24 : ℕ) : ℤ) from rfl, pow2_intCast]
  push_cast
  ring

theorem pow2_127_le_maxFinite : pow2 127 ≤ maxFinite := by
  rw [maxFinite_eq, show (127 : ℤ) = 23 + 104 from rfl, pow2_add]
  rw [show ((23 : ℤ)) = ((23 : ℕ) : ℤ) from rfl, pow2_intCast]
  have := pow2_pos (104 : ℤ)
  push_cast
  nlinarith

theorem rnd_ge_pow2_qlog2 {b : ℚ} (hb : 0 < b) (hcl : -149 ≤ qlog2 b - 23) :
    pow2 (qlog2 b) ≤ rnd b := by
  have hfb : fexp b = qlog2 b - 23 := by
    unfold fexp
    rw [abs_of_pos hb]
    omega
  have hblb : pow2 (qlog2 b) ≤ b := (qlog2_spec b hb).1
  have hq23 : ((2 ^ 23 : ℤ) : ℚ) * pow2 (fexp b) = pow2 (qlog2 b) := by
    rw [← pow2_intCast 23, ← pow2_add, hfb]
    congr 1
    omega
  have ht : ((2 ^ 23 : ℤ) : ℚ) ≤ b / pow2 (fexp b) := by
    rw [le_div_iff₀ (pow2_pos _), hq23]
    exact hblb
  have hrne : (2 ^ 23 : ℤ) ≤ rne (b / pow2 (fexp b)) := by
    have := rne_mono ht
    rwa [rne_intCast] at this
  unfold rnd
  calc pow2 (qlog2 b) = ((2 ^ 23 : ℤ) : ℚ) * pow2 (fexp b) := hq23.symm
    _ ≤ (rne (b / pow2 (fexp b)) : ℚ) * pow2 (fexp b) :=
        mul_le_mul_of_nonneg_right (by exact_mod_cast hrne) (pow2_pos _).le

theorem fl_fin_bound {x t : ℚ} (h : fl x = F32.fin t) : t = rnd x ∧ |t| ≤ maxFinite := by
  unfold fl at h
  split at h
  case isTrue hlt =>
    cases h
    refine ⟨rfl, ?_⟩
    rcases le_or_lt |x| (pow2 127) with hc | hc
    · rw [← rnd_abs]
      calc rnd |x| ≤ rnd (pow2 127) := rnd_mono hc
        _ = pow2 127 := by
            have : pow2 127 = ((1 : ℤ) : ℚ) * pow2 127 := by norm_num
            rw [this, rnd_exact (by norm_num) (by norm_num)]
        _ ≤ maxFinite := pow2_127_le_maxFinite
    · -- the rounded value is a multiple of a grid step of at least 2^104
      have hapos : 0 < |x| := lt_trans (pow2_pos 127) hc
      have hlog : 127 ≤ qlog2 |x| := by
        have := qlog2_mono (pow2_pos 127) hc.le
        rwa [qlog2_pow2] at this
      have hfx : fexp x = qlog2 |x| - 23 := by
        unfold fexp
        omega
      have hM : 0 ≤ rne (|x| / pow2 (fexp x)) :=
        rne_nonneg (div_nonneg (abs_nonneg x) (pow2_pos _).le)
      have habs : |rnd x| = rnd |x| := (rnd_abs x).symm
      have hrndabs : rnd |x| = (rne (|x| / pow2 (fexp x)) : ℚ) * pow2 (fexp x) := by
        unfold rnd
        rw [fexp_abs]
      set M := rne (|x| / pow2 (fexp x)) with hMdef
      have hup : (M : ℚ) * pow2 (fexp x) < pow2 128 := by
        rw [← hrndabs, ← habs]
        exact hlt
      have hub2 : qlog2 |x| ≤ 128 := by
        by_contra hcon
        push_neg at hcon
        have h1 := rnd_ge_pow2_qlog2 hapos (by omega)
        have h2 : pow2 128 ≤ pow2 (qlog2 |x|) := pow2_le_pow2 (by omega)
        rw [← rnd_abs x] at hlt
        linarith
      have hd : 0 ≤ 128 - fexp x := by omega
      have hbound : (M : ℚ) < ((2 ^ (128 - fexp x).toNat : ℤ) : ℚ) := by
        rw [← pow2_toNat hd]
        rw [show pow2 (128 - fexp x) = pow2 128 / pow2 (fexp x) from by
          rw [eq_div_iff (pow2_ne_zero _), ← pow2_add]; congr 1; ring]
        rw [lt_div_iff₀ (pow2_pos _)]
        exact hup
      have hMZ : M < 2 ^ (128 - fexp x).toNat := by exact_mod_cast hbound
      have hMZ' : M ≤ 2 ^ (128 - fexp x).toNat - 1 := by omega
      have hstep : (M : ℚ) * pow2 (fexp x) ≤ pow2 128 - pow2 (fexp x) := by
        have hcast : ((2 ^ (128 - fexp x).toNat - 1 : ℤ) : ℚ) * pow2 (fexp x) =
            pow2 128 - pow2 (fexp x) := by
          have h1 : ((2 ^ (128 - fexp x).toNat : ℤ) : ℚ) = pow2 (128 - fexp x) :=
            (pow2_toNat hd).symm
          rw [Int.cast_sub, Int.cast_one, sub_mul, one_mul, h1, ← pow2_add]
          congr 2
          omega
        calc (M : ℚ) * pow2 (fexp x) ≤ ((2 ^ (128 - fexp x).toNat - 1 : ℤ) : ℚ) * pow2 (fexp x) :=
              mul_le_mul_of_nonneg_right (by exact_mod_cast hMZ') (pow2_pos _).le
          _ = pow2 128 - pow2 (fexp x) := hcast
      have hgrid : pow2 104 ≤ pow2 (fexp x) := pow2_le_pow2 (by omega)
      rw [habs, hrndabs]
      rw [maxFinite_eq_sub]
      linarith
  case isFalse hlt =>
    cases h

theorem rnd_maxhalf : rnd (maxFinite + 1 / 2) = maxFinite := by decide

theorem castI32_round_inf_pos : castI32 (round_f32 (F32.inf false)) = 2147483647 := by decide

theorem castI32_round_inf_neg : castI32 (round_f32 (F32.inf true)) = -2147483648 := by decide

theorem castI32_fin (u : ℚ) :
    castI32 (F32.fin u) = max (-2147483648) (min 2147483647 (qtrunc u)) := rfl

theorem qtrunc_eq (u : ℚ) : qtrunc u = if 0 ≤ u then ⌊u⌋ else ⌈u⌉ := by
  unfold qtrunc
  rw [qfloor_eq, qceil_eq]

theorem rnd_intCast {k : ℤ} (h : |k| ≤ 2 ^ 24) : rnd (k : ℚ) = (k : ℚ) := by
  have := rnd_exact h (by norm_num : (-149 : ℤ) ≤ 0)
  rwa [pow2_zero, mul_one] at this

theorem rnd_pow2 {n : ℤ} (h : -149 ≤ n) : rnd (pow2 n) = pow2 n := by
  have := rnd_exact (m := 1) (by norm_num) h
  rwa [Int.cast_one, one_mul] at this

theorem round_big_pos {t : ℚ} (ht : |t| ≤ maxFinite) (hbig : 1025 ≤ t) :
    1024 ≤ castI32 (round_f32 (F32.fin t)) := by
  have ht' : t ≤ maxFinite := (abs_le.mp ht).2
  have hge : fge (F32.fin t) (F32.fin 0) = true := by
    show fle (F32.fin 0) (F32.fin t) = true
    show decide ((0 : ℚ) ≤ t) = true
    simp only [decide_eq_true_eq]
    linarith
  unfold round_f32
  rw [if_pos hge, fadd_fin]
  have hulb : (1025 : ℚ) ≤ rnd (t + 1 / 2) := by
    have h1 : rnd (((1025 : ℤ) : ℚ)) ≤ rnd (t + 1 / 2) := rnd_mono (by push_cast; linarith)
    rwa [rnd_intCast (by norm_num)] at h1
  have huub : rnd (t + 1 / 2) ≤ maxFinite := by
    calc rnd (t + 1 / 2) ≤ rnd (maxFinite + 1 / 2) := rnd_mono (by linarith)
      _ = maxFinite := rnd_maxhalf
  set u := rnd (t + 1 / 2) with hu
  have hfl : fl (t + 1 / 2) = F32.fin u := by
    unfold fl
    rw [if_pos]
    rw [abs_of_nonneg (by linarith)]
    linarith [maxFinite_lt]
  rw [hfl, castI32_fin, qtrunc_eq, if_pos (by linarith)]
  have hfloor : 1025 ≤ ⌊u⌋ := Int.le_floor.mpr (by push_cast; linarith)
  set k : ℤ := max (-2147483648) (min 2147483647 ⌊u⌋) with hk
  have hk1 : 1025 ≤ k := by omega
  have hk2 : k ≤ 2147483647 := by omega
  show 1024 ≤ castI32 (F32.ofInt k)
  rcases le_or_lt k (2 ^ 24) with hsmall | hbig2
  · rw [ofInt_eq (by rw [abs_le]; omega)]
    rw [castI32_fin, qtrunc_eq, if_pos (by exact_mod_cast (by omega : (0:ℤ) ≤ k)),
      Int.floor_intCast]
    omega
  · have hr1 : ((2 ^ 24 : ℤ) : ℚ) ≤ rnd (k : ℚ) := by
      have := rnd_mono (show (((2 ^ 24 : ℤ)) : ℚ) ≤ ((k : ℤ) : ℚ) by exact_mod_cast hbig2.le)
      rwa [rnd_intCast (by norm_num)] at this
    have hcast31 : ((2147483648 : ℤ) : ℚ) = pow2 31 := by
      rw [show ((31 : ℤ)) = ((31 : ℕ) : ℤ) from rfl, pow2_intCast]
      norm_num
    have hr2 : rnd (k : ℚ) ≤ pow2 31 := by
      have h2 := rnd_mono (show ((k : ℤ) : ℚ) ≤ ((2147483648 : ℤ) : ℚ) by
        exact_mod_cast (by omega : k ≤ 2147483648))
      rwa [hcast31, rnd_pow2 (by norm_num)] at h2
    have hfl2 : fl ((k : ℤ) : ℚ) = F32.fin (rnd (k : ℚ)) := by
      apply fl_fin_of_abs_le
      rw [abs_of_nonneg (by exact_mod_cast (by omega : (0:ℤ) ≤ k))]
      calc ((k : ℤ) : ℚ) ≤ ((2147483648 : ℤ) : ℚ) := by exact_mod_cast (by omega : k ≤ 2147483648)
        _ = pow2 31 := hcast31
        _ ≤ maxFinite := pow2_le_maxFinite (by norm_num)
    show 1024 ≤ castI32 (fl ((k : ℤ) : ℚ))
    rw [hfl2, castI32_fin, qtrunc_eq,
      if_pos (le_trans (by exact_mod_cast (by norm_num : (0:ℤ) ≤ 2 ^ 24)) hr1)]
    have hfloor2 : (2 ^ 24 : ℤ) ≤ ⌊rnd (k : ℚ)⌋ := Int.le_floor.mpr hr1
    omega

theorem round_big_neg {t : ℚ} (ht : |t| ≤ maxFinite) (hbig : t ≤ -1026) :
    castI32 (round_f32 (F32.fin t)) ≤ -1025 := by
  have ht' : -maxFinite ≤ t := (abs_le.mp ht).1
  have hge : fge (F32.fin t) (F32.fin 0) = false := by
    show fle (F32.fin 0) (F32.fin t) = false
    show decide ((0 : ℚ) ≤ t) = false
    simp only [decide_eq_false_iff_not, not_le]
    linarith
  unfold round_f32
  rw [hge]
  simp only [Bool.false_eq_true, if_false]
  rw [fsub_fin]
  have huub : rnd (t - 1 / 2) ≤ ((-1026 : ℤ) : ℚ) := by
    have h1 := rnd_mono (show t - 1 / 2 ≤ (((-1026 : ℤ)) : ℚ) by push_cast; linarith)
    rwa [rnd_intCast (by norm_num)] at h1
  have hulb : -maxFinite ≤ rnd (t - 1 / 2) := by
    have h1 := rnd_mono (show -(maxFinite + 1 / 2) ≤ t - 1 / 2 by linarith)
    rwa [rnd_neg, rnd_maxhalf] at h1
    
  set u := rnd (t - 1 / 2) with hu
  have hfl : fl (t - 1 / 2) = F32.fin u := by
    unfold fl
    rw [if_pos]
    rw [abs_of_nonpos (by push_cast at huub; linarith)]
    linarith [maxFinite_lt]
  rw [hfl, castI32_fin, qtrunc_eq, if_neg (by push_cast at huub; linarith)]
  have hceil : ⌈u⌉ ≤ -1026 := Int.ceil_le.mpr huub
  set k : ℤ := max (-2147483648) (min 2147483647 ⌈u⌉) with hk
  have hk1 : k ≤ -1026 := by omega
  have hk2 : -2147483648 ≤ k := by omega
  show castI32 (F32.ofInt k) ≤ -1025
  rcases le_or_lt (-(2 ^ 24)) k with hsmall | hbig2
  · rw [ofInt_eq (by rw [abs_le]; omega)]
    rw [castI32_fin, qtrunc_eq, if_neg (by exact_mod_cast (by omega : ¬ (0:ℤ) ≤ k)),
      Int.ceil_intCast]
    omega
  · have hr1 : rnd (k : ℚ) ≤ ((-(2 ^ 24) : ℤ) : ℚ) := by
      have h0 : rnd (((-(2 ^ 24) : ℤ)) : ℚ) = (((-(2 ^ 24) : ℤ)) : ℚ) :=
        rnd_intCast (by norm_num)
      have h2 := rnd_mono (show ((k : ℤ) : ℚ) ≤ (((-(2 ^ 24) : ℤ)) : ℚ) by
        exact_mod_cast hbig2.le)
      rw [h0] at h2
      exact h2
    have hcast31 : ((2147483648 : ℤ) : ℚ) = pow2 31 := by
      rw [show ((31 : ℤ)) = ((31 : ℕ) : ℤ) from rfl, pow2_intCast]
      norm_num
    have hr2 : -pow2 31 ≤ rnd (k : ℚ) := by
      have h2 := rnd_mono (show ((-2147483648 : ℤ) : ℚ) ≤ ((k : ℤ) : ℚ) by
        exact_mod_cast (by omega : (-2147483648 : ℤ) ≤ k))
      rw [show ((-2147483648 : ℤ) : ℚ) = -(((2147483648 : ℤ)) : ℚ) by push_cast; ring,
        hcast31, rnd_neg, rnd_pow2 (by norm_num)] at h2
      exact h2
    have hfl2 : fl ((k : ℤ) : ℚ) = F32.fin (rnd (k : ℚ)) := by
      apply fl_fin_of_abs_le
      rw [abs_of_nonpos (by exact_mod_cast (by omega : k ≤ (0:ℤ)))]
      have : ((-2147483648 : ℤ) : ℚ) ≤ ((k : ℤ) : ℚ) := by
        exact_mod_cast (by omega : (-2147483648 : ℤ) ≤ k)
      calc -((k : ℤ) : ℚ) ≤ -((-2147483648 : ℤ) : ℚ) := by linarith
        _ = pow2 31 := by push_cast; rw [← hcast31]; push_cast; ring
        _ ≤ maxFinite := pow2_le_maxFinite (by norm_num)
    show castI32 (fl ((k : ℤ) : ℚ)) ≤ -1025
    rw [hfl2, castI32_fin, qtrunc_eq, if_neg (by push_cast at hr1; linarith)]
    have hceil2 : ⌈rnd (k : ℚ)⌉ ≤ -(2 ^ 24) := Int.ceil_le.mpr hr1
    omega

theorem l11Valid_iff (v : F32) (n : ℤ) :
    l11Valid v n = true ↔ (-1024 ≤ l11Y v n ∧ l11Y v n ≤ 1023) := by
  unfold l11Valid
  simp

theorem fl_ne_nan (x : ℚ) : fl x ≠ F32.nan := by
  unfold fl
  split <;> simp

theorem l11_valid_t_bound {q : ℚ} {n : ℤ} (hn1 : -16 ≤ n) (hn2 : n ≤ 15)
    (hv : l11Valid (F32.fin q) n = true) :
    fdiv (F32.fin q) (exp2f n) = F32.fin (rnd (q / pow2 n)) ∧
    |rnd (q / pow2 n)| ≤ 1026 ∧ |q| < 1027 * pow2 n := by
  have hy := (l11Valid_iff _ _).mp hv
  have hexp : exp2f n = F32.fin (pow2 n) := exp2f_eq_small (by omega) (by omega)
  have hdiv : fdiv (F32.fin q) (exp2f n) = fl (q / pow2 n) := by
    rw [hexp, fdiv_fin _ _ (pow2_ne_zero n)]
  unfold l11Y at hy
  rw [hdiv] at hy
  rcases hfl : fl (q / pow2 n) with _ | s | t
  · exact absurd hfl (fl_ne_nan _)
  · exfalso
    rw [hfl] at hy
    cases s
    · rw [castI32_round_inf_pos] at hy; omega
    · rw [castI32_round_inf_neg] at hy; omega
  · obtain ⟨ht_eq, ht_le⟩ := fl_fin_bound hfl
    have htb : |t| ≤ 1026 := by
      rw [hfl] at hy
      by_contra hcon
      push_neg at hcon
      rcases lt_abs.mp hcon with hpos | hneg
      · have := round_big_pos ht_le (by linarith)
        omega
      · have := round_big_neg ht_le (by linarith)
        omega
    refine ⟨by rw [hdiv, hfl, ht_eq], by rw [← ht_eq]; exact htb, ?_⟩
    by_contra hcon
    push_neg at hcon
    have habs : (1027 : ℚ) ≤ |q| / pow2 n := by
      rw [le_div_iff₀ (pow2_pos n)]
      linarith
    have habs2 : |q / pow2 n| = |q| / pow2 n := by
      rw [abs_div, abs_of_pos (pow2_pos n)]
    have hbig : ((1027 : ℤ) : ℚ) ≤ |rnd (q / pow2 n)| := by
      rw [← rnd_abs, habs2]
      have h0 : rnd (((1027 : ℤ)) : ℚ) = (((1027 : ℤ)) : ℚ) := rnd_intCast (by norm_num)
      have h1 := rnd_mono (show (((1027 : ℤ)) : ℚ) ≤ |q| / pow2 n by push_cast; linarith)
      rwa [h0] at h1
    rw [← ht_eq] at hbig
    push_cast at hbig
    linarith

theorem l11_err_fin {q : ℚ} {n : ℤ} (hn1 : -16 ≤ n) (hn2 : n ≤ 15)
    (hv : l11Valid (F32.fin q) n = true) :
    ∃ e : ℚ, l11Err (F32.fin q) n = F32.fin e ∧ 0 ≤ e ∧ e < maxFinite := by
  obtain ⟨hdiv, htb, hqb⟩ := l11_valid_t_bound hn1 hn2 hv
  have hy := (l11Valid_iff _ _).mp hv
  set y := l11Y (F32.fin q) n with hydef
  have hexp : exp2f n = F32.fin (pow2 n) := exp2f_eq_small (by omega) (by omega)
  have hofy : F32.ofInt y = F32.fin (y : ℚ) := ofInt_eq (by rw [abs_le]; omega)
  have hrecon : l11Recon (F32.fin q) n = F32.fin ((y : ℚ) * pow2 n) := by
    unfold l11Recon
    rw [← hydef, hofy, hexp, fmul_fin, fl_exact (by rw [abs_le]; omega) (by omega) (by omega)]
  have hq26 : |q| < pow2 26 := by
    have h1 : (1027 : ℚ) * pow2 n ≤ 1027 * pow2 15 := by
      have := pow2_le_pow2 (show n ≤ 15 by omega)
      linarith
    have h2 : (1027 : ℚ) * pow2 15 < pow2 26 := by
      rw [show (26 : ℤ) = 11 + 15 from rfl, pow2_add]
      have h11 : pow2 (11 : ℤ) = ((2 ^ 11 : ℤ) : ℚ) := by
        rw [show ((11 : ℤ)) = ((11 : ℕ) : ℤ) from rfl, pow2_intCast]
      apply mul_lt_mul_of_pos_right _ (pow2_pos 15)
      rw [h11]
      norm_num
    linarith
  have hrq : |(y : ℚ) * pow2 n| ≤ pow2 25 := by
    rw [abs_mul, abs_of_pos (pow2_pos n)]
    have h1 : |(y : ℚ)| ≤ 1024 := by
      rw [abs_le]
      constructor
      · exact_mod_cast (by omega : (-1024 : ℤ) ≤ y)
      · exact_mod_cast (by omega : y ≤ (1024 : ℤ))
    have h2 : pow2 n ≤ pow2 15 := pow2_le_pow2 (by omega)
    calc |(y : ℚ)| * pow2 n ≤ 1024 * pow2 15 :=
          mul_le_mul h1 h2 (pow2_pos n).le (by norm_num)
      _ = pow2 25 := by
          rw [show (25 : ℤ) = 10 + 15 from rfl, pow2_add]
          have h10 : pow2 (10 : ℤ) = ((2 ^ 10 : ℤ) : ℚ) := by
            rw [show ((10 : ℤ)) = ((10 : ℕ) : ℤ) from rfl, pow2_intCast]
          rw [h10]
          norm_num
  have hsub : |q - (y : ℚ) * pow2 n| ≤ pow2 27 := by
    have h1 : |q - (y : ℚ) * pow2 n| ≤ |q| + |(y : ℚ) * pow2 n| := abs_sub _ _
    have h2 : pow2 26 + pow2 25 ≤ pow2 27 := by
      have h25 : pow2 (25 : ℤ) ≤ pow2 26 := pow2_le_pow2 (by norm_num)
      have h27 : pow2 (27 : ℤ) = pow2 1 * pow2 26 := by rw [← pow2_add]; norm_num
      rw [h27, pow2_one]
      linarith
    linarith
  unfold l11Err
  rw [hrecon, fsub_fin]
  have hok : |q - (y : ℚ) * pow2 n| ≤ maxFinite :=
    le_trans hsub (pow2_le_maxFinite (by norm_num))
  rw [fl_fin_of_abs_le hok, fabs_fin]
  refine ⟨|rnd (q - (y : ℚ) * pow2 n)|, rfl, abs_nonneg _, ?_⟩
  rw [← rnd_abs]
  calc rnd |q - (y : ℚ) * pow2 n| ≤ rnd (pow2 27) := rnd_mono hsub
    _ = pow2 27 := rnd_pow2 (by norm_num)
    _ < maxFinite :=
        lt_of_lt_of_le (pow2_lt_pow2_iff.mpr (by norm_num)) pow2_127_le_maxFinite

theorem flt_fin_true {a b : ℚ} : flt (F32.fin a) (F32.fin b) = true ↔ a < b := by
  simp [flt]

theorem flt_fin_false {a b : ℚ} : flt (F32.fin a) (F32.fin b) = false ↔ b ≤ a := by
  simp only [flt, decide_eq_false_iff_not, not_lt]

theorem l11_fold_stay (v : F32) (L : List ℤ) (s : ℤ × ℤ × F32)
    (h : ∀ n ∈ L, l11Valid v n = true → flt (l11Err v n) s.2.2 = false) :
    L.foldl (l11Step v) s = s := by
  induction L with
  | nil => rfl
  | cons a L ih =>
    rw [List.foldl_cons]
    have hstep : l11Step v s a = s := by
      unfold l11Step
      by_cases hva : l11Valid v a = true
      · rw [if_pos hva, if_neg]
        rw [h a (List.mem_cons_self a L) hva]
        simp
      · rw [if_neg hva]
    rw [hstep]
    exact ih (fun n hn hvn => h n (List.mem_cons_of_mem a hn) hvn)

theorem l11_fold_char (v : F32) (L : List ℤ)
    (hgood : ∀ n ∈ L, l11Valid v n = true → ∃ e : ℚ, l11Err v n = F32.fin e ∧ e < maxFinite)
    (hsort : L.Pairwise (· < ·)) :
    ∀ s : ℤ × ℤ × F32, (∃ es : ℚ, s.2.2 = F32.fin es) →
    (L.foldl (l11Step v) s = s ∧
      ∀ n ∈ L, l11Valid v n = true → flt (l11Err v n) s.2.2 = false) ∨
    (∃ k, k ∈ L ∧ l11Valid v k = true ∧
      L.foldl (l11Step v) s = (k, l11Y v k, l11Err v k) ∧
      flt (l11Err v k) s.2.2 = true ∧
      (∀ m ∈ L, l11Valid v m = true → flt (l11Err v m) (l11Err v k) = false) ∧
      (∀ m ∈ L, l11Valid v m = true → m < k → flt (l11Err v k) (l11Err v m) = true)) := by
  induction L with
  | nil =>
    intro s hs
    left
    exact ⟨rfl, fun n hn => absurd hn (List.not_mem_nil n)⟩
  | cons a L ih =>
    intro s hs
    obtain ⟨es, hes⟩ := hs
    have hgood' : ∀ n ∈ L, l11Valid v n = true →
        ∃ e : ℚ, l11Err v n = F32.fin e ∧ e < maxFinite :=
      fun n hn => hgood n (List.mem_cons_of_mem a hn)
    have hsort' : L.Pairwise (· < ·) := (List.pairwise_cons.mp hsort).2
    have hamem : ∀ m ∈ L, a < m := (List.pairwise_cons.mp hsort).1
    rw [List.foldl_cons]
    by_cases hva : l11Valid v a = true
    · obtain ⟨ea, hea, healt⟩ := hgood a (List.mem_cons_self a L) hva
      by_cases hflt : flt (l11Err v a) s.2.2 = true
      · -- the first element updates the running best
        have hstep : l11Step v s a = (a, l11Y v a, l11Err v a) := by
          unfold l11Step
          rw [if_pos hva, if_pos hflt]
        rw [hstep]
        rcases ih hgood' hsort' (a, l11Y v a, l11Err v a) ⟨ea, hea⟩ with
          ⟨hfix, hrest⟩ | ⟨k, hk, hvk, hfold, hlt, hmin, hstrict⟩
        · right
          refine ⟨a, List.mem_cons_self a L, hva, hfix, hflt, ?_, ?_⟩
          · intro m hm hvm
            rcases List.mem_cons.mp hm with rfl | hm'
            · rw [hea, flt_fin_false]
            · exact hrest m hm' hvm
          · intro m hm hvm hma
            rcases List.mem_cons.mp hm with rfl | hm'
            · exact absurd hma (lt_irrefl m)
            · exact absurd hma (by have := hamem m hm'; omega)
        · right
          obtain ⟨ek, hek, heklt⟩ := hgood' k hk hvk
          have heka : ek < ea := by
            have := hlt
            rw [hek, hea, flt_fin_true] at this
            exact this
          refine ⟨k, List.mem_cons_of_mem a hk, hvk, hfold, ?_, ?_, ?_⟩
          · rw [hek, hes, flt_fin_true]
            have hastoes : ea < es := by
              rw [hea, hes, flt_fin_true] at hflt
              exact hflt
            linarith
          · intro m hm hvm
            rcases List.mem_cons.mp hm with rfl | hm'
            · rw [hea, hek, flt_fin_false]
              linarith
            · exact hmin m hm' hvm
          · intro m hm hvm hmk
            rcases List.mem_cons.mp hm with rfl | hm'
            · rw [hek, hea, flt_fin_true]
              exact heka
            · exact hstrict m hm' hvm hmk
      · -- no update on the first element
        have hflt' : flt (l11Err v a) s.2.2 = false := Bool.eq_false_iff.mpr hflt
        have hstep : l11Step v s a = s := by
          unfold l11Step
          rw [if_pos hva, if_neg (by rw [hflt']; simp)]
        rw [hstep]
        rcases ih hgood' hsort' s ⟨es, hes⟩ with
          ⟨hfix, hrest⟩ | ⟨k, hk, hvk, hfold, hlt, hmin, hstrict⟩
        · left
          refine ⟨hfix, ?_⟩
          intro m hm hvm
          rcases List.mem_cons.mp hm with rfl | hm'
          · exact hflt'
          · exact hrest m hm' hvm
        · right
          obtain ⟨ek, hek, heklt⟩ := hgood' k hk hvk
          have hesek : ek < es := by
            rw [hek, hes, flt_fin_true] at hlt
            exact hlt
          have heaes : es ≤ ea := by
            rw [hea, hes, flt_fin_false] at hflt'
            exact hflt'
          refine ⟨k, List.mem_cons_of_mem a hk, hvk, hfold, hlt, ?_, ?_⟩
          · intro m hm hvm
            rcases List.mem_cons.mp hm with rfl | hm'
            · rw [hea, hek, flt_fin_false]
              linarith
            · exact hmin m hm' hvm
          · intro m hm hvm hmk
            rcases List.mem_cons.mp hm with rfl | hm'
            · rw [hek, hea, flt_fin_true]
              linarith
            · exact hstrict m hm' hvm hmk
    · -- invalid first element: skipped
      have hstep : l11Step v s a = s := by
        unfold l11Step
        rw [if_neg hva]
      rw [hstep]
      rcases ih hgood' hsort' s ⟨es, hes⟩ with
        ⟨hfix, hrest⟩ | ⟨k, hk, hvk, hfold, hlt, hmin, hstrict⟩
      · left
        refine ⟨hfix, ?_⟩
        intro m hm hvm
        rcases List.mem_cons.mp hm with rfl | hm'
        · exact absurd hvm hva
        · exact hrest m hm' hvm
      · right
        refine ⟨k, List.mem_cons_of_mem a hk, hvk, hfold, hlt, ?_, ?_⟩
        · intro m hm hvm
          rcases List.mem_cons.mp hm with rfl | hm'
          · exact absurd hvm hva
          · exact hmin m hm' hvm
        · intro m hm hvm hmk
          rcases List.mem_cons.mp hm with rfl | hm'
          · exact absurd hvm hva
          · exact hstrict m hm' hvm hmk

theorem l11Exps_bounds : ∀ n ∈ l11Exps, -16 ≤ n ∧ n ≤ 15 := by decide

theorem l11Exps_sorted : l11Exps.Pairwise (· < ·) := by decide

/-- Claim C1: `Linear11::from_f32` rejects non-finite input, maps 0.0 to the
all-zero raw word, and otherwise scans exponents -16..15 in ascending order,
keeps only exponents whose rounded mantissa lies in [-1024, 1023], returns the
packing of the pair minimizing the reconstruction error |value - Y*2^N| with
the first-encountered pair winning ties, and returns None when no exponent
yields an in-range mantissa. -/
theorem claim_C1 (v : F32) :
    (v.isFinite = false → Linear11.from_f32 v = none) ∧
    (feq v (F32.fin 0) = true → Linear11.from_f32 v = some ⟨0⟩) ∧
    (v.isFinite = true → feq v (F32.fin 0) = false →
      ((∀ n ∈ l11Exps, l11Valid v n = false) → Linear11.from_f32 v = none) ∧
      (∀ n0 ∈ l11Exps, l11Valid v n0 = true →
        ∃ k, k ∈ l11Exps ∧ l11Valid v k = true ∧
          Linear11.from_f32 v = some ⟨l11Pack k (l11Y v k)⟩ ∧
          (∀ m ∈ l11Exps, l11Valid v m = true → fle (l11Err v k) (l11Err v m) = true) ∧
          (∀ m ∈ l11Exps, l11Valid v m = true → m < k →
            flt (l11Err v k) (l11Err v m) = true))) := by
  refine ⟨?_, ?_, ?_⟩
  · intro hnf
    unfold Linear11.from_f32
    rw [if_pos (by rw [hnf]; rfl)]
  · intro hfeq
    have hv0 : v = F32.fin 0 := by
      cases v with
      | nan => simp [feq] at hfeq
      | inf s => simp [feq] at hfeq
      | fin q =>
        have hq : q = 0 := by simpa [feq] using hfeq
        rw [hq]
    rw [hv0]
    decide
  · intro hfin hne
    obtain ⟨q, rfl⟩ : ∃ q, v = F32.fin q := by
      cases v with
      | fin q => exact ⟨q, rfl⟩
      | nan => simp [F32.isFinite] at hfin
      | inf s => simp [F32.isFinite] at hfin
    constructor
    · intro hallinv
      unfold Linear11.from_f32
      rw [if_neg (by simp [F32.isFinite]), if_neg (by rw [hne]; simp)]
      have hstay := l11_fold_stay (F32.fin q) l11Exps (0, 0, F32.fin maxFinite)
        (fun n hn hvn => by rw [hallinv n hn] at hvn; simp at hvn)
      show (if feq (l11Exps.foldl (l11Step (F32.fin q)) (0, 0, F32.fin maxFinite)).2.2
          (F32.fin maxFinite) = true then (none : Option Linear11)
        else some (Linear11.mk (l11Pack (l11Exps.foldl (l11Step (F32.fin q)) (0, 0, F32.fin maxFinite)).1
          (l11Exps.foldl (l11Step (F32.fin q)) (0, 0, F32.fin maxFinite)).2.1))) = none
      rw [hstay]
      rw [if_pos (by show feq (F32.fin maxFinite) (F32.fin maxFinite) = true; simp [feq])]
    · intro n0 hn0 hv0
      have hgood : ∀ n ∈ l11Exps, l11Valid (F32.fin q) n = true →
          ∃ e, l11Err (F32.fin q) n = F32.fin e ∧ e < maxFinite := by
        intro n hn hvn
        obtain ⟨hb1, hb2⟩ := l11Exps_bounds n hn
        obtain ⟨e, he, _, helt⟩ := l11_err_fin hb1 hb2 hvn
        exact ⟨e, he, helt⟩
      rcases l11_fold_char (F32.fin q) l11Exps hgood l11Exps_sorted (0, 0, F32.fin maxFinite)
          ⟨maxFinite, rfl⟩ with ⟨hfix, hrest⟩ | ⟨k, hk, hvk, hfold, hlt, hmin, hstrict⟩
      · exfalso
        obtain ⟨e, he, helt⟩ := hgood n0 hn0 hv0
        have hr := hrest n0 hn0 hv0
        rw [he] at hr
        rw [show ((0, 0, F32.fin maxFinite) : ℤ × ℤ × F32).2.2 = F32.fin maxFinite from rfl,
          flt_fin_false] at hr
        linarith
      · obtain ⟨ek, hek, heklt⟩ := hgood k hk hvk
        refine ⟨k, hk, hvk, ?_, ?_, hstrict⟩
        · unfold Linear11.from_f32
          rw [if_neg (by simp [F32.isFinite]), if_neg (by rw [hne]; simp)]
          show (if feq (l11Exps.foldl (l11Step (F32.fin q)) (0, 0, F32.fin maxFinite)).2.2
              (F32.fin maxFinite) = true then (none : Option Linear11)
            else some (Linear11.mk (l11Pack
              (l11Exps.foldl (l11Step (F32.fin q)) (0, 0, F32.fin maxFinite)).1
              (l11Exps.foldl (l11Step (F32.fin q)) (0, 0, F32.fin maxFinite)).2.1))) =
            some (Linear11.mk (l11Pack k (l11Y (F32.fin q) k)))
          rw [hfold]
          show (if feq (l11Err (F32.fin q) k) (F32.fin maxFinite) = true then (none : Option Linear11)
            else some (Linear11.mk (l11Pack k (l11Y (F32.fin q) k)))) =
            some (Linear11.mk (l11Pack k (l11Y (F32.fin q) k)))
          rw [hek]
          rw [if_neg (by
            simp only [feq, decide_eq_true_eq]
            exact ne_of_lt heklt)]
        · intro m hm hvm
          obtain ⟨em, hem, _⟩ := hgood m hm hvm
          have hmn := hmin m hm hvm
          rw [hem, hek, flt_fin_false] at hmn
          rw [hek, hem]
          show decide (ek ≤ em) = true
          simp only [decide_eq_true_eq]
          exact hmn

/-- Witness for C1 at value 1.0, which encodes with exponent -9, mantissa 512. -/
theorem claim_C1_witness :
    ∃ k, k ∈ l11Exps ∧ l11Valid (F32.fin 1) k = true ∧
      Linear11.from_f32 (F32.fin 1) = some ⟨l11Pack k (l11Y (F32.fin 1) k)⟩ ∧
      (∀ m ∈ l11Exps, l11Valid (F32.fin 1) m = true →
        fle (l11Err (F32.fin 1) k) (l11Err (F32.fin 1) m) = true) ∧
      (∀ m ∈ l11Exps, l11Valid (F32.fin 1) m = true → m < k →
        flt (l11Err (F32.fin 1) k) (l11Err (F32.fin 1) m) = true) :=
  ((claim_C1 (F32.fin 1)).2.2 (by decide) (by decide)).2 (-9) (by decide) (by decide)

theorem rnd_half_eq : rnd (1 / 2 : ℚ) = 1 / 2 := by decide

theorem rnd_quarter_eq : rnd (1 / 4 : ℚ) = 1 / 4 := by decide

theorem rnd_threequarter_eq : rnd (3 / 4 : ℚ) = 3 / 4 := by decide

theorem rnd_one_eq : rnd (1 : ℚ) = 1 := by decide

theorem rnd_negone_eq : rnd (-1 : ℚ) = -1 := by decide

theorem rnd_abs_le {x c : ℚ} (h : |x| ≤ c) (hc : rnd c = c) : |rnd x| ≤ c := by
  rw [← rnd_abs]
  have := rnd_mono h
  rwa [hc] at this

theorem one_le_maxFinite : (1 : ℚ) ≤ maxFinite := by
  have := pow2_le_maxFinite (show (0 : ℤ) ≤ 104 by norm_num)
  rwa [pow2_zero] at this

theorem round_small {t : ℚ} (ht : |t| ≤ 1 / 2) :
    castI32 (round_f32 (F32.fin t)) = 0 ∨ castI32 (round_f32 (F32.fin t)) = 1 ∨
      castI32 (round_f32 (F32.fin t)) = -1 := by
  obtain ⟨ht1, ht2⟩ := abs_le.mp ht
  have hmax1 := one_le_maxFinite
  unfold round_f32
  by_cases h0 : (0 : ℚ) ≤ t
  · have hge : fge (F32.fin t) (F32.fin 0) = true := by
      show fle (F32.fin 0) (F32.fin t) = true
      show decide ((0 : ℚ) ≤ t) = true
      simp [h0]
    rw [if_pos hge, fadd_fin]
    have habs : |t + 1 / 2| ≤ maxFinite := by
      rw [abs_le]; constructor <;> linarith
    rw [fl_fin_of_abs_le habs]
    set u := rnd (t + 1 / 2) with hu
    have hu0 : (0 : ℚ) ≤ u := rnd_nonneg (by linarith)
    have hu1 : u ≤ 1 := by
      have h2 := rnd_mono (show t + 1 / 2 ≤ 1 by linarith)
      rwa [rnd_one_eq] at h2
    have ha : (0 : ℤ) ≤ ⌊u⌋ := Int.le_floor.mpr (by exact_mod_cast hu0)
    have hb : ⌊u⌋ ≤ 1 := by
      have hcast : ((⌊u⌋ : ℤ) : ℚ) ≤ 1 := le_trans (Int.floor_le u) hu1
      exact_mod_cast hcast
    have hc1 : castI32 (F32.fin u) = ⌊u⌋ := by
      rw [castI32_fin, qtrunc_eq, if_pos hu0]
      omega
    rw [hc1]
    have hcases : ⌊u⌋ = 0 ∨ ⌊u⌋ = 1 := by omega
    rcases hcases with h | h <;> rw [h]
    · left; decide
    · right; left; decide
  · push_neg at h0
    have hge : fge (F32.fin t) (F32.fin 0) = false := by
      show fle (F32.fin 0) (F32.fin t) = false
      show decide ((0 : ℚ) ≤ t) = false
      simp only [decide_eq_false_iff_not]
      exact not_le.mpr h0
    rw [if_neg (by rw [hge]; simp), fsub_fin]
    have habs : |t - 1 / 2| ≤ maxFinite := by
      rw [abs_le]; constructor <;> linarith
    rw [fl_fin_of_abs_le habs]
    set u := rnd (t - 1 / 2) with hu
    have hu0 : u ≤ 0 := rnd_nonpos (by linarith)
    have hu1 : -1 ≤ u := by
      have h2 := rnd_mono (show (-1 : ℚ) ≤ t - 1 / 2 by linarith)
      rwa [rnd_negone_eq] at h2
    have hq : -1 ≤ qtrunc u ∧ qtrunc u ≤ 0 := by
      rw [qtrunc_eq]
      by_cases h : (0 : ℚ) ≤ u
      · rw [if_pos h]
        constructor
        · have h1 : (0 : ℤ) ≤ ⌊u⌋ := Int.le_floor.mpr (by exact_mod_cast h)
          omega
        · have hcast : ((⌊u⌋ : ℤ) : ℚ) ≤ 0 := le_trans (Int.floor_le u) hu0
          exact_mod_cast hcast
      · rw [if_neg h]
        constructor
        · have hcast : (-1 : ℚ) ≤ ((⌈u⌉ : ℤ) : ℚ) := le_trans hu1 (Int.le_ceil u)
          exact_mod_cast hcast
        · exact Int.ceil_le.mpr (by exact_mod_cast hu0)
    have hc1 : castI32 (F32.fin u) = qtrunc u := by
      rw [castI32_fin]
      omega
    rw [hc1]
    have hcases : qtrunc u = 0 ∨ qtrunc u = -1 := by omega
    rcases hcases with h | h <;> rw [h]
    · left; decide
    · right; right; decide

theorem round_small_zero {t : ℚ} (ht : |t| ≤ 1 / 4) :
    castI32 (round_f32 (F32.fin t)) = 0 := by
  obtain ⟨ht1, ht2⟩ := abs_le.mp ht
  have hmax1 := one_le_maxFinite
  unfold round_f32
  by_cases h0 : (0 : ℚ) ≤ t
  · have hge : fge (F32.fin t) (F32.fin 0) = true := by
      show fle (F32.fin 0) (F32.fin t) = true
      show decide ((0 : ℚ) ≤ t) = true
      simp [h0]
    rw [if_pos hge, fadd_fin]
    have habs : |t + 1 / 2| ≤ maxFinite := by
      rw [abs_le]; constructor <;> linarith
    rw [fl_fin_of_abs_le habs]
    set u := rnd (t + 1 / 2) with hu
    have hu0 : (0 : ℚ) ≤ u := rnd_nonneg (by linarith)
    have hu1 : u ≤ 3 / 4 := by
      have h2 := rnd_mono (show t + 1 / 2 ≤ 3 / 4 by linarith)
      rwa [rnd_threequarter_eq] at h2
    have ha : (0 : ℤ) ≤ ⌊u⌋ := Int.le_floor.mpr (by exact_mod_cast hu0)
    have hb : ⌊u⌋ ≤ 0 := by
      by_contra hcon
      push_neg at hcon
      have hcast : ((1 : ℤ) : ℚ) ≤ ((⌊u⌋ : ℤ) : ℚ) := by exact_mod_cast hcon
      have := le_trans hcast (le_trans (by exact_mod_cast Int.floor_le u) hu1)
      norm_num at this
    have hc1 : castI32 (F32.fin u) = ⌊u⌋ := by
      rw [castI32_fin, qtrunc_eq, if_pos hu0]
      omega
    rw [hc1]
    rw [show ⌊u⌋ = 0 by omega]
    decide
  · push_neg at h0
    have hge : fge (F32.fin t) (F32.fin 0) = false := by
      show fle (F32.fin 0) (F32.fin t) = false
      show decide ((0 : ℚ) ≤ t) = false
      simp only [decide_eq_false_iff_not]
      exact not_le.mpr h0
    rw [if_neg (by rw [hge]; simp), fsub_fin]
    have habs : |t - 1 / 2| ≤ maxFinite := by
      rw [abs_le]; constructor <;> linarith
    rw [fl_fin_of_abs_le habs]
    set u := rnd (t - 1 / 2) with hu
    have hu0 : u ≤ -1 / 4 := by
      have h2 := rnd_mono (show t - 1 / 2 ≤ -(1 / 4) by linarith)
      have h3 : rnd (-(1 / 4 : ℚ)) = -(1 / 4) := by rw [rnd_neg, rnd_quarter_eq]
      rw [h3] at h2
      linarith
    have hu1 : -(3 / 4) ≤ u := by
      have h2 := rnd_mono (show -(3 / 4 : ℚ) ≤ t - 1 / 2 by linarith)
      have h3 : rnd (-(3 / 4 : ℚ)) = -(3 / 4) := by rw [rnd_neg, rnd_threequarter_eq]
      rwa [h3] at h2
    have hq0 : qtrunc u = 0 := by
      rw [qtrunc_eq, if_neg (by linarith)]
      have ha : ⌈u⌉ ≤ 0 := Int.ceil_le.mpr (by push_cast; linarith)
      have hb : (0 : ℤ) ≤ ⌈u⌉ := by
        have hcast : (-(3 / 4) : ℚ) ≤ ((⌈u⌉ : ℤ) : ℚ) := le_trans hu1 (Int.le_ceil u)
        by_contra hcon
        push_neg at hcon
        have : ⌈u⌉ ≤ -1 := by omega
        have h4 : ((⌈u⌉ : ℤ) : ℚ) ≤ -1 := by exact_mod_cast this
        linarith
      omega
    have hc1 : castI32 (F32.fin u) = 0 := by
      rw [castI32_fin, hq0]
      decide
    rw [hc1]
    decide

theorem l11Y_div {q : ℚ} {n : ℤ} (h1 : -16 ≤ n) (h2 : n ≤ 15)
    (habs : |q / pow2 n| ≤ maxFinite) :
    l11Y (F32.fin q) n = castI32 (round_f32 (F32.fin (rnd (q / pow2 n)))) := by
  unfold l11Y
  rw [exp2f_eq_small (by omega) (by omega), fdiv_fin _ _ (pow2_ne_zero n),
    fl_fin_of_abs_le habs]

theorem l11Err_at_zero {q : ℚ} {n : ℤ} (h1 : -16 ≤ n) (h2 : n ≤ 15)
    (hy : l11Y (F32.fin q) n = 0) (habsq : |q| ≤ maxFinite) :
    l11Err (F32.fin q) n = F32.fin |rnd q| := by
  unfold l11Err l11Recon
  rw [hy, exp2f_eq_small (by omega) (by omega),
    ofInt_eq (show |(0 : ℤ)| ≤ 2 ^ 24 by norm_num), fmul_fin]
  rw [show (((0 : ℤ) : ℚ)) * pow2 n = 0 by push_cast; ring]
  have hfl0 : fl (0 : ℚ) = F32.fin 0 := by
    rw [fl_fin_of_abs_le (by simpa using le_trans zero_le_one one_le_maxFinite), rnd_zero]
  rw [hfl0, fsub_fin, sub_zero, fl_fin_of_abs_le habsq, fabs_fin]

theorem l11Err_at_one {q : ℚ} (hq : |q| ≤ 1) (hy : l11Y (F32.fin q) (-16) = 1) :
    l11Err (F32.fin q) (-16) = F32.fin |rnd (q - pow2 (-16))| := by
  unfold l11Err l11Recon
  rw [hy, exp2f_eq_small (show (-31 : ℤ) < -16 by norm_num) (show (-16 : ℤ) < 31 by norm_num),
    ofInt_eq (show |(1 : ℤ)| ≤ 2 ^ 24 by norm_num), fmul_fin]
  rw [show (((1 : ℤ) : ℚ)) * pow2 (-16) = pow2 (-16) by push_cast; ring]
  rw [fl_pow2 (by norm_num) (by norm_num), fsub_fin]
  have habs : |q - pow2 (-16)| ≤ maxFinite := by
    obtain ⟨ha, hb⟩ := abs_le.mp hq
    have hp := pow2_pos (-16)
    have hpl : pow2 (-16) ≤ 1 := by
      have := pow2_le_pow2 (show (-16 : ℤ) ≤ 0 by norm_num)
      rwa [pow2_zero] at this
    have hm2 : (2 : ℚ) ≤ maxFinite := by
      have := pow2_le_maxFinite (show (1 : ℤ) ≤ 104 by norm_num)
      rwa [pow2_one] at this
    rw [abs_le]
    constructor <;> linarith
  rw [fl_fin_of_abs_le habs, fabs_fin]

theorem l11Err_at_negone {q : ℚ} (hq : |q| ≤ 1) (hy : l11Y (F32.fin q) (-16) = -1) :
    l11Err (F32.fin q) (-16) = F32.fin |rnd (q + pow2 (-16))| := by
  unfold l11Err l11Recon
  rw [hy, exp2f_eq_small (show (-31 : ℤ) < -16 by norm_num) (show (-16 : ℤ) < 31 by norm_num),
    ofInt_eq (show |(-1 : ℤ)| ≤ 2 ^ 24 by norm_num), fmul_fin]
  rw [show (((-1 : ℤ) : ℚ)) * pow2 (-16) = -pow2 (-16) by push_cast; ring]
  have hflneg : fl (-pow2 (-16)) = F32.fin (-pow2 (-16)) := by
    have hpl : pow2 (-16) ≤ 1 := by
      have := pow2_le_pow2 (show (-16 : ℤ) ≤ 0 by norm_num)
      rwa [pow2_zero] at this
    have hrn : rnd (-pow2 (-16)) = -pow2 (-16) := by
      rw [rnd_neg, rnd_pow2 (by norm_num)]
    rw [fl_fin_of_abs_le, hrn]
    rw [abs_neg, abs_of_pos (pow2_pos (-16))]
    exact le_trans hpl one_le_maxFinite
  rw [hflneg, fsub_fin, sub_neg_eq_add]
  have habs : |q + pow2 (-16)| ≤ maxFinite := by
    obtain ⟨ha, hb⟩ := abs_le.mp hq
    have hp := pow2_pos (-16)
    have hpl : pow2 (-16) ≤ 1 := by
      have := pow2_le_pow2 (show (-16 : ℤ) ≤ 0 by norm_num)
      rwa [pow2_zero] at this
    have hm2 : (2 : ℚ) ≤ maxFinite := by
      have := pow2_le_maxFinite (show (1 : ℤ) ≤ 104 by norm_num)
      rwa [pow2_one] at this
    rw [abs_le]
    constructor <;> linarith
  rw [fl_fin_of_abs_le habs, fabs_fin]

theorem l11_pack0_decode : ∀ k ∈ l11Exps,
    l11Pack k 0 &&& 0x7FF = 0 ∧ Linear11.to_f32 ⟨l11Pack k 0⟩ = F32.fin 0 := by decide

/-- Claim C10: every finite nonzero f32 value of magnitude below 2^-17 is
accepted by `Linear11::from_f32` (no encoding error): the returned word has
mantissa bits all zero, and decoding it with `Linear11::to_f32` yields exactly
0.0 — sub-resolution values are silently flushed to zero. -/
theorem claim_C10 (q : ℚ) (hrep : rnd q = q) (hne : q ≠ 0)
    (hsmall : |q| < pow2 (-17)) :
    ∃ w : Linear11, Linear11.from_f32 (F32.fin q) = some w ∧
      w.raw &&& 0x7FF = 0 ∧ Linear11.to_f32 w = F32.fin 0 := by
  have hp17 : (0 : ℚ) < pow2 (-17) := pow2_pos _
  have hp17max : pow2 (-17) ≤ maxFinite := pow2_le_maxFinite (by norm_num)
  have hp17one : pow2 (-17) ≤ 1 := by
    have := pow2_le_pow2 (show (-17 : ℤ) ≤ 0 by norm_num)
    rwa [pow2_zero] at this
  have habsmax : |q| ≤ maxFinite := le_trans (le_of_lt hsmall) hp17max
  have habsone : |q| ≤ 1 := le_trans (le_of_lt hsmall) hp17one
  have hdivb : ∀ n : ℤ, -16 ≤ n → |q / pow2 n| ≤ |q| * pow2 16 := by
    intro n hn
    rw [abs_div, abs_of_pos (pow2_pos n), div_le_iff₀ (pow2_pos n)]
    have hc : (1 : ℚ) ≤ pow2 (16 + n) := by
      have := pow2_le_pow2 (show (0 : ℤ) ≤ 16 + n by omega)
      rwa [pow2_zero] at this
    have he : pow2 16 * pow2 n = pow2 (16 + n) := (pow2_add 16 n).symm
    rw [mul_assoc, he]
    nlinarith [abs_nonneg q]
  have hdivb15 : ∀ n : ℤ, -15 ≤ n → |q / pow2 n| ≤ |q| * pow2 15 := by
    intro n hn
    rw [abs_div, abs_of_pos (pow2_pos n), div_le_iff₀ (pow2_pos n)]
    have hc : (1 : ℚ) ≤ pow2 (15 + n) := by
      have := pow2_le_pow2 (show (0 : ℤ) ≤ 15 + n by omega)
      rwa [pow2_zero] at this
    have he : pow2 15 * pow2 n = pow2 (15 + n) := (pow2_add 15 n).symm
    rw [mul_assoc, he]
    nlinarith [abs_nonneg q]
  have hq16 : |q| * pow2 16 ≤ 1 / 2 := by
    have h1 : |q| * pow2 16 < pow2 (-17) * pow2 16 :=
      mul_lt_mul_of_pos_right hsmall (pow2_pos 16)
    have h2 : pow2 (-17) * pow2 16 = pow2 (-1) := by
      rw [← pow2_add]
      norm_num
    have h3 : pow2 (-1) = 1 / 2 := by decide
    rw [h2, h3] at h1
    linarith
  have hq15 : |q| * pow2 15 ≤ 1 / 4 := by
    have h1 : |q| * pow2 15 < pow2 (-17) * pow2 15 :=
      mul_lt_mul_of_pos_right hsmall (pow2_pos 15)
    have h2 : pow2 (-17) * pow2 15 = pow2 (-2) := by
      rw [← pow2_add]
      norm_num
    have h3 : pow2 (-2) = 1 / 4 := by decide
    rw [h2, h3] at h1
    linarith
  have hY : ∀ n : ℤ, -16 ≤ n → n ≤ 15 →
      l11Y (F32.fin q) n = 0 ∨ l11Y (F32.fin q) n = 1 ∨ l11Y (F32.fin q) n = -1 := by
    intro n h1 h2
    have hd : |q / pow2 n| ≤ 1 / 2 := le_trans (hdivb n h1) hq16
    rw [l11Y_div h1 h2 (le_trans hd (le_trans (by norm_num) one_le_maxFinite))]
    exact round_small (rnd_abs_le hd rnd_half_eq)
  have hY0 : ∀ n : ℤ, -15 ≤ n → n ≤ 15 → l11Y (F32.fin q) n = 0 := by
    intro n h1 h2
    have hd : |q / pow2 n| ≤ 1 / 4 := le_trans (hdivb15 n h1) hq15
    rw [l11Y_div (by omega) h2 (le_trans hd (le_trans (by norm_num) one_le_maxFinite))]
    exact round_small_zero (rnd_abs_le hd rnd_quarter_eq)
  have hvalid : ∀ n ∈ l11Exps, l11Valid (F32.fin q) n = true := by
    intro n hn
    obtain ⟨h1, h2⟩ := l11Exps_bounds n hn
    rw [l11Valid_iff]
    rcases hY n h1 h2 with h | h | h <;> rw [h] <;> omega
  have herr0 : ∀ n : ℤ, -16 ≤ n → n ≤ 15 → l11Y (F32.fin q) n = 0 →
      l11Err (F32.fin q) n = F32.fin |q| := by
    intro n h1 h2 hy
    rw [l11Err_at_zero h1 h2 hy habsmax, hrep]
  have hgood : ∀ n ∈ l11Exps, l11Valid (F32.fin q) n = true →
      ∃ e : ℚ, l11Err (F32.fin q) n = F32.fin e ∧ e < maxFinite := by
    intro n hn hv
    obtain ⟨h1, h2⟩ := l11Exps_bounds n hn
    obtain ⟨e, he, _, hlt⟩ := l11_err_fin h1 h2 hv
    exact ⟨e, he, hlt⟩
  rcases l11_fold_char (F32.fin q) l11Exps hgood l11Exps_sorted (0, 0, F32.fin maxFinite)
      ⟨maxFinite, rfl⟩ with ⟨hfix, hrest⟩ | ⟨k, hk, hvk, hfold, hlt, hmin, hstrict⟩
  · exfalso
    have h0mem : (0 : ℤ) ∈ l11Exps := by decide
    have hr := hrest 0 h0mem (hvalid 0 h0mem)
    rw [herr0 0 (by norm_num) (by norm_num) (hY0 0 (by norm_num) (by norm_num))] at hr
    rw [show ((0, 0, F32.fin maxFinite) : ℤ × ℤ × F32).2.2 = F32.fin maxFinite from rfl,
      flt_fin_false] at hr
    linarith
  · have hkb := l11Exps_bounds k hk
    have hm15 : (-15 : ℤ) ∈ l11Exps := by decide
    have hem15 : l11Err (F32.fin q) (-15) = F32.fin |q| :=
      herr0 (-15) (by norm_num) (by norm_num) (hY0 (-15) (by norm_num) (by norm_num))
    have hYk : l11Y (F32.fin q) k = 0 := by
      rcases lt_or_le (-16) k with hk16 | hk16
      · exact hY0 k (by omega) hkb.2
      · have hkeq : k = -16 := by omega
        subst hkeq
        rcases hY (-16) (by norm_num) (by norm_num) with h | h | h
        · exact h
        · exfalso
          have he1 := l11Err_at_one habsone h
          have hmn := hmin (-15) hm15 (hvalid _ hm15)
          rw [hem15, he1, flt_fin_false] at hmn
          have hb : q - pow2 (-16) ≤ -pow2 (-17) := by
            have h2 : pow2 (-16) = 2 * pow2 (-17) := by
              rw [show (-16 : ℤ) = 1 + -17 by norm_num, pow2_add, pow2_one]
            have hq' := (abs_lt.mp hsmall).2
            linarith
          have hrnd := rnd_mono hb
          rw [show rnd (-pow2 (-17)) = -pow2 (-17) by rw [rnd_neg, rnd_pow2 (by norm_num)]]
            at hrnd
          have hge17 : pow2 (-17) ≤ |rnd (q - pow2 (-16))| := by
            rw [abs_of_nonpos (le_trans hrnd (by linarith))]
            linarith
          linarith
        · exfalso
          have he1 := l11Err_at_negone habsone h
          have hmn := hmin (-15) hm15 (hvalid _ hm15)
          rw [hem15, he1, flt_fin_false] at hmn
          have hb : pow2 (-17) ≤ q + pow2 (-16) := by
            have h2 : pow2 (-16) = 2 * pow2 (-17) := by
              rw [show (-16 : ℤ) = 1 + -17 by norm_num, pow2_add, pow2_one]
            have hq' := (abs_lt.mp hsmall).1
            linarith
          have hrnd := rnd_mono hb
          rw [rnd_pow2 (by norm_num)] at hrnd
          have hge17 : pow2 (-17) ≤ |rnd (q + pow2 (-16))| := by
            rw [abs_of_nonneg (le_trans (by linarith) hrnd)]
            linarith
          linarith
    have hne' : feq (F32.fin q) (F32.fin 0) = false := by
      show decide (q = 0) = false
      simp [hne]
    refine ⟨⟨l11Pack k (l11Y (F32.fin q) k)⟩, ?_, ?_, ?_⟩
    · unfold Linear11.from_f32
      rw [if_neg (by simp [F32.isFinite]), if_neg (by rw [hne']; simp)]
      show (if feq (l11Exps.foldl (l11Step (F32.fin q)) (0, 0, F32.fin maxFinite)).2.2
          (F32.fin maxFinite) = true then (none : Option Linear11)
        else some (Linear11.mk (l11Pack
          (l11Exps.foldl (l11Step (F32.fin q)) (0, 0, F32.fin maxFinite)).1
          (l11Exps.foldl (l11Step (F32.fin q)) (0, 0, F32.fin maxFinite)).2.1))) =
        some (Linear11.mk (l11Pack k (l11Y (F32.fin q) k)))
      rw [hfold]
      show (if feq (l11Err (F32.fin q) k) (F32.fin maxFinite) = true
          then (none : Option Linear11)
        else some (Linear11.mk (l11Pack k (l11Y (F32.fin q) k)))) =
        some (Linear11.mk (l11Pack k (l11Y (F32.fin q) k)))
      obtain ⟨ek, hek, heklt⟩ := hgood k hk hvk
      rw [hek]
      rw [if_neg (by
        simp only [feq, decide_eq_true_eq]
        exact ne_of_lt heklt)]
    · show l11Pack k (l11Y (F32.fin q) k) &&& 0x7FF = 0
      rw [hYk]
      exact (l11_pack0_decode k hk).1
    · show Linear11.to_f32 ⟨l11Pack k (l11Y (F32.fin q) k)⟩ = F32.fin 0
      rw [hYk]
      exact (l11_pack0_decode k hk).2

/-- Witness for C10 at the representable value 2^-20. -/
theorem claim_C10_witness :
    ∃ w : Linear11, Linear11.from_f32 (F32.fin (pow2 (-20))) = some w ∧
      w.raw &&& 0x7FF = 0 ∧ Linear11.to_f32 w = F32.fin 0 :=
  claim_C10 (pow2 (-20)) (by decide) (by decide) (by decide)
